import Mathlib

/-!
Verification of the synchronization-and-aggregation engine of the
Toggl2Timeshit time-tracking dashboard, as a shallow embedding of the
Rust sources (`src/rounding.rs`, `src/grouping.rs`, `src/rollups.rs`,
`src/app.rs`, `src/storage.rs`).

Modelling conventions:
  * Machine integers (`i64`, `u32`, `u64`) are modelled as `Int`/`Nat`.
    The seconds arithmetic in the sources never approaches the `i64`
    boundaries (durations are a single user's tracked time), so the
    saturating operations (`saturating_add`, `saturating_mul`) coincide
    with plain arithmetic and are modelled as such.
  * `chrono::NaiveDate` is modelled by its day number (days from
    0001-01-01 of the proleptic Gregorian calendar, the same counting as
    chrono's `num_days_from_ce`), as a `Nat`.  `succ_opt` is `+ 1`,
    date ordering is `Nat` ordering, and `weekday`, `year` and `month`
    are computed from the day number with the standard civil-from-days
    conversion (`civilFromDays` below), which is the proleptic Gregorian
    calendar chrono implements.
  * String parsing done by chrono (`DateTime::parse_from_rfc3339`
    followed by conversion to the `Local` timezone) and timestamp
    rendering (`to_rfc3339`) are modelled as an abstract environment
    `Env` of functions; every theorem quantifies over it.
  * `std::collections::HashMap` is modelled as an association list with
    insert-or-replace-in-place semantics; iteration order of the model
    is the list order (for maps that are only read pointwise this is
    irrelevant; where the source iterates a map the list order stands
    for the map's iteration order).
  * `f64` display values (`total_hours = seconds as f64 / 3600.0`) are
    a rendering of the exact integer second counts that the source
    computes first; the model keeps the exact seconds (`total_seconds`)
    and states the totalling claims at the seconds level.
-/

/-- Abstract environment for the chrono-backed helpers: `parseDate`
models `parse_rfc3339_date` (RFC-3339 parse + `Local` conversion +
`date_naive`, returning a day number), `parseTime` models
`parse_cached_time` (returning a point on the time line as an `Int`),
`toRfc` models `DateTime::to_rfc3339`, and `now` models
`storage::now_rfc3339()` for the single instant a refresh runs at. -/
structure Env where
  parseDate : String → Option Nat
  parseTime : String → Option Int
  toRfc : Int → String
  now : String

/-! ### Data model (src/models.rs) -/

/-- Model of `models::Workspace`. -/
structure Workspace where
  id : Nat
  name : String
deriving DecidableEq, Repr

/-- Model of `models::Project`. -/
structure Project where
  id : Nat
  name : String
  client_id : Option Nat
  client_name : Option String
deriving DecidableEq, Repr

/-- Model of `models::TimeEntry`.  `duration` is the signed seconds
count (`i64` in the source). -/
structure TimeEntry where
  id : Nat
  description : Option String
  duration : Int
  start : String
  stop : Option String
  project_id : Option Nat
deriving DecidableEq, Repr

/-! ### Duration rounding engine (src/rounding.rs) -/

/-- Model of `rounding::RoundingMode`. -/
inductive RoundingMode where
  | closest
  | up
  | down
deriving DecidableEq, Repr

/-- Model of `rounding::RoundingConfig` (`increment_minutes` is `u32`). -/
structure RoundingConfig where
  increment_minutes : Nat
  mode : RoundingMode
deriving DecidableEq, Repr

/-- The mode dispatch of `round_seconds` on the absolute value
`abs_seconds` (a `Nat`, since the source takes `seconds.abs()`), with
`inc` the increment in seconds.  Division is `Nat` division, which
agrees with Rust's `i64` division on the non-negative operands used
here. -/
def roundMagnitude (a inc : Nat) (mode : RoundingMode) : Nat :=
  match mode with
  | .down => a / inc * inc
  | .up => if a % inc = 0 then a else (a / inc + 1) * inc
  | .closest =>
    let lower := a / inc * inc
    let upper := if a % inc = 0 then lower else lower + inc
    if upper - a ≤ a - lower then upper else lower

/-- Model of `rounding::round_seconds`.  The source's second guard
`increment_seconds <= 0` can only fire when `increment_minutes * 60`
is zero, which the first guard already excludes; it is kept as the
`inc = 0` test.  `rounded.saturating_mul(sign)` is exact here. -/
def round_seconds (seconds : Int) (cfg : RoundingConfig) : Int :=
  if cfg.increment_minutes = 0 then seconds
  else
    let inc := cfg.increment_minutes * 60
    if inc = 0 then seconds
    else
      let sign : Int := if seconds < 0 then -1 else 1
      (roundMagnitude seconds.natAbs inc cfg.mode : Int) * sign

/-! ### Association-list model of `HashMap` -/

/-- `HashMap::insert`: replace the value of an existing key in place,
otherwise append the new binding. -/
def assocInsert {κ β : Type} [DecidableEq κ] :
    List (κ × β) → κ → β → List (κ × β)
  | [], k, v => [(k, v)]
  | (k', v') :: m, k, v =>
    if k' = k then (k', v) :: m else (k', v') :: assocInsert m k v

/-- `HashMap::get`. -/
def assocGet {κ β : Type} [DecidableEq κ] : List (κ × β) → κ → Option β
  | [], _ => none
  | (k', v') :: m, k => if k' = k then some v' else assocGet m k

/-! ### Grouping engine (src/grouping.rs) -/

/-- Model of `grouping::GroupedEntry`; `total_seconds` is the exact
value whose `f64` rendering (`/ 3600.0`) the source stores as
`total_hours`. -/
structure GroupedEntry where
  description : String
  total_seconds : Int
deriving DecidableEq, Repr

/-- Model of `grouping::GroupedProject`, with exact seconds in place of
the `f64` hours (see module comment). -/
structure GroupedProject where
  project_name : String
  client_name : Option String
  display_name : String
  total_seconds : Int
  entries : List GroupedEntry
deriving DecidableEq, Repr

/-- One insertion into the `project_info` map of `group_entries`: the
project's client name is the denormalized `client_name` if present,
else the `client_names` lookup by `client_id`. -/
def projectInfoStep (client_names : List (Nat × String))
    (m : List (Option Nat × (String × Option String))) (project : Project) :
    List (Option Nat × (String × Option String)) :=
  let cname := project.client_name.orElse
    (fun _ => project.client_id.bind (fun i => assocGet client_names i))
  assocInsert m (some project.id) (project.name, cname)

/-- The `project_info` map of `group_entries`: each project is inserted
under `Some(project.id)`, and finally `None ↦ ("No Project", None)` is
inserted. -/
def project_info_map (projects : List Project)
    (client_names : List (Nat × String)) :
    List (Option Nat × (String × Option String)) :=
  assocInsert (projects.foldl (projectInfoStep client_names) []) none
    ("No Project", none)

/-- One step of the raw-seconds accumulation of `group_entries`: the
inner `HashMap<String, i64>` entry for `description` is bumped by the
entry's duration (`or_insert(0) += duration`). -/
def bumpInner : List (String × Int) → String → Int → List (String × Int)
  | [], d, v => [(d, v)]
  | (d', v') :: m, d, v =>
    if d' = d then (d', v' + v) :: m else (d', v') :: bumpInner m d v

/-- The outer `grouped: HashMap<Option<u64>, HashMap<String, i64>>`
accumulation step (`grouped.entry(project_key).or_default()`). -/
def bumpOuter (g : List (Option Nat × List (String × Int)))
    (pk : Option Nat) (d : String) (v : Int) :
    List (Option Nat × List (String × Int)) :=
  match g with
  | [] => [(pk, bumpInner [] d v)]
  | (pk', inner) :: rest =>
    if pk' = pk then (pk', bumpInner inner d v) :: rest
    else (pk', inner) :: bumpOuter rest pk d v

/-- The description key used by `group_entries`
(`description.unwrap_or("No description")`). -/
def descOf (e : TimeEntry) : String :=
  e.description.getD "No description"

/-- The raw-seconds accumulation loop of `group_entries` over all
entries. -/
def buildGrouped (entries : List TimeEntry) :
    List (Option Nat × List (String × Int)) :=
  entries.foldl (fun g e => bumpOuter g e.project_id (descOf e) e.duration) []

/-- Optional rounding, as applied by `group_entries` and
`build_rollups` (`rounding.map(round_seconds).unwrap_or(duration)`). -/
def applyRounding (rounding : Option RoundingConfig) (v : Int) : Int :=
  match rounding with
  | some cfg => round_seconds v cfg
  | none => v

/-- Comparison used to sort a project's line items
(descending `total_hours`); `seconds / 3600.0` is ordered like the
seconds themselves, so the model compares seconds. -/
def groupedEntryGe (a b : GroupedEntry) : Prop :=
  b.total_seconds ≤ a.total_seconds

instance : DecidableRel groupedEntryGe := fun a b =>
  inferInstanceAs (Decidable (b.total_seconds ≤ a.total_seconds))

/-- The final project ordering of `group_entries`: client name
ascending with clientless projects last, then total descending, then
project name ascending.  String comparison is modelled with the
lexicographic order on the character list, matching Rust's bytewise
`str` ordering (UTF-8 preserves scalar-value order). -/
def groupedProjectLe (a b : GroupedProject) : Prop :=
  (match a.client_name, b.client_name with
    | some x, some y => x < y ∨ (x = y ∧ clientTie a b)
    | none, some _ => False
    | some _, none => True
    | none, none => clientTie a b)
where
  /-- Tie-break on equal client names: total descending then name. -/
  clientTie (a b : GroupedProject) : Prop :=
    b.total_seconds < a.total_seconds ∨
      (a.total_seconds = b.total_seconds ∧ a.project_name ≤ b.project_name)

instance : DecidableRel groupedProjectLe := fun a b => by
  unfold groupedProjectLe groupedProjectLe.clientTie
  exact match a.client_name, b.client_name with
  | some _, some _ => inferInstanceAs (Decidable (_ ∨ _))
  | none, some _ => inferInstanceAs (Decidable False)
  | some _, none => inferInstanceAs (Decidable True)
  | none, none => inferInstanceAs (Decidable (_ ∨ _))

/-- The body of the per-group `map` of `group_entries`: resolve
`(project_name, client_name)` (defaulting to `("Unknown Project",
None)`), build the display name, round each line's raw (pre-summed)
seconds once, sort the lines by descending total, and total the
already-rounded lines. -/
def mkGroupedProject (info : List (Option Nat × (String × Option String)))
    (rounding : Option RoundingConfig)
    (pg : Option Nat × List (String × Int)) : GroupedProject :=
  let pinfo := (assocGet info pg.1).getD ("Unknown Project", none)
  let display := match pinfo.2 with
    | some c => c ++ " — " ++ pinfo.1
    | none => pinfo.1
  let lines := pg.2.map (fun dv =>
    GroupedEntry.mk dv.1 (applyRounding rounding dv.2))
  GroupedProject.mk pinfo.1 pinfo.2 display
    (lines.map (fun l => l.total_seconds)).sum
    (lines.insertionSort groupedEntryGe)

/-- Model of `grouping::group_entries`.  Rust's stable `sort_by` is
modelled with insertion sort; none of the verified properties depend on
the order of comparator-equal elements. -/
def group_entries (entries : List TimeEntry) (projects : List Project)
    (client_names : List (Nat × String))
    (rounding : Option RoundingConfig) : List GroupedProject :=
  let info := project_info_map projects client_names
  let result := (buildGrouped entries).map (mkGroupedProject info rounding)
  result.insertionSort groupedProjectLe

/-- Auxiliary for stating the grouping claims: the raw (unrounded)
seconds the source accumulates for the group keyed
`(project_id, description)` — the sum of the durations of exactly the
entries in that group. -/
def rawSum (entries : List TimeEntry) (pid : Option Nat) (d : String) : Int :=
  ((entries.filter (fun e => e.project_id = pid ∧ descOf e = d)).map
    (fun e => e.duration)).sum

/-- The value stored in the nested grouping map for a
`(project_id, description)` key. -/
def groupedVal (g : List (Option Nat × List (String × Int)))
    (pid : Option Nat) (d : String) : Option Int :=
  (assocGet g pid).bind (fun inner => assocGet inner d)

/-! ### Rollup builder (src/rollups.rs) -/

/-- Model of `rollups::DailyTotal` (`date` is a day number, see module
comment). -/
structure DailyTotal where
  date : Nat
  seconds : Int
deriving DecidableEq, Repr

/-- Model of `rollups::PeriodRollup`; the display `label` is omitted
(pure formatting, used by no claim).  `endDate` renders the source's
`end` field, which is a reserved word in Lean. -/
structure PeriodRollup where
  start : Nat
  endDate : Nat
  days : Nat
  seconds : Int
deriving DecidableEq, Repr

/-- Model of `rollups::Rollups`. -/
structure Rollups where
  daily : List DailyTotal
  weekly : List PeriodRollup
  monthly : List PeriodRollup
  yearly : List PeriodRollup
deriving DecidableEq, Repr

/-- Model of `rollups::WeekStart`. -/
inductive WeekStart where
  | monday
  | sunday
deriving DecidableEq, Repr

/-- Proleptic-Gregorian civil date from a day number (days from
0001-01-01, chrono's `num_days_from_ce` counting), returning
`(year, month, day)`.  This is the standard civil-from-days conversion
the chrono calendar agrees with; `n + 305` shifts the epoch to
0000-03-01 so that all intermediate values stay in `Nat`. -/
def civilFromDays (n : Nat) : Nat × Nat × Nat :=
  let z := n + 305
  let era := z / 146097
  let doe := z % 146097
  let yoe := (doe - doe / 1460 + doe / 36524 - doe / 146096) / 365
  let y := yoe + era * 400
  let doy := doe - (365 * yoe + yoe / 4 - yoe / 100)
  let mp := (5 * doy + 2) / 153
  let d := doy - (153 * mp + 2) / 5 + 1
  let m := if mp < 10 then mp + 3 else mp - 9
  (if m ≤ 2 then y + 1 else y, m, d)

/-- chrono `Datelike::year` on the day-number model. -/
def yearOf (n : Nat) : Nat := (civilFromDays n).1

/-- chrono `Datelike::month` on the day-number model. -/
def monthOf (n : Nat) : Nat := (civilFromDays n).2.1

/-- chrono `weekday().num_days_from_monday()`: day number 1
(0001-01-01) is a Monday in the proleptic Gregorian calendar. -/
def daysFromMonday (n : Nat) : Nat := (n + 6) % 7

/-- chrono `weekday().num_days_from_sunday()`. -/
def daysFromSunday (n : Nat) : Nat := n % 7

/-- Model of `rollups::start_of_week` (`date - Duration::days(offset)`;
`Nat` subtraction only differs from chrono below day 7 of year 1, far
outside any representable span of interest, and no claim depends on the
value there). -/
def start_of_week (date : Nat) (week_start : WeekStart) : Nat :=
  match week_start with
  | .monday => date - daysFromMonday date
  | .sunday => date - daysFromSunday date

/-- The per-date raw accumulation of `build_rollups`: the final value
of `totals[d]` is the sum of the (optionally rounded) durations of the
entries whose parsed local start date is `d`, with out-of-span entries
skipped (`date < start || date > end`).  `HashMap` accumulation with
`+=` is order-independent, so the map is modelled by its pointwise
value. -/
def rollupTotals (env : Env) (entries : List TimeEntry)
    (startD endD : Nat) (rounding : Option RoundingConfig) (d : Nat) : Int :=
  ((entries.filter (fun e =>
      env.parseDate e.start = some d ∧ startD ≤ d ∧ d ≤ endD)).map
    (fun e => applyRounding rounding e.duration)).sum

/-- The `while current <= end` loop of `build_daily_totals`, with its
iteration count (`end + 1 - start`) made an explicit structural
argument so the definition stays kernel-reducible. -/
def dailyTotalsLoop (totals : Nat → Int) : Nat → Nat → List DailyTotal
  | 0, _ => []
  | n + 1, cur => DailyTotal.mk cur (totals cur) ::
      dailyTotalsLoop totals n (cur + 1)

/-- Model of `rollups::build_daily_totals`: one `DailyTotal` per date
from `start` to `end` inclusive (`succ_opt` is `+ 1` on day numbers),
with `totals.get(date).unwrap_or(0)`. -/
def build_daily_totals (totals : Nat → Int) (startD endD : Nat) :
    List DailyTotal :=
  dailyTotalsLoop totals (endD + 1 - startD) startD

/-- A freshly started period for a day (`PeriodRollup` with
`days: 0, seconds: 0` before the unconditional update step). -/
def initRollup (day : DailyTotal) : PeriodRollup :=
  PeriodRollup.mk day.date day.date 0 0

/-- The unconditional per-day update of the rollup loops
(`end = date; days += 1; seconds += day.seconds`). -/
def updateRollup (r : PeriodRollup) (day : DailyTotal) : PeriodRollup :=
  PeriodRollup.mk r.start day.date (r.days + 1) (r.seconds + day.seconds)

/-- The shared loop skeleton of `build_weekly_rollups`,
`build_monthly_rollups` and `build_yearly_rollups` (the three sources
are textually identical up to the grouping key and the label): the
accumulator is the pair `current_key`/`current_rollup` (both `None` or
both `Some` in the source), a key change pushes the open rollup and
opens a new one, and every day is folded into the open rollup. -/
def rollupLoop {κ : Type} [DecidableEq κ] (keyf : Nat → κ)
    (cur : Option (κ × PeriodRollup)) :
    List DailyTotal → List PeriodRollup
  | [] =>
    match cur with
    | none => []
    | some kr => [kr.2]
  | day :: rest =>
    let k := keyf day.date
    match cur with
    | none => rollupLoop keyf (some (k, updateRollup (initRollup day) day)) rest
    | some kr =>
      if kr.1 = k then
        rollupLoop keyf (some (kr.1, updateRollup kr.2 day)) rest
      else
        kr.2 :: rollupLoop keyf (some (k, updateRollup (initRollup day) day)) rest

/-- Model of `rollups::build_weekly_rollups` (grouping key:
`start_of_week`). -/
def build_weekly_rollups (daily : List DailyTotal) (week_start : WeekStart) :
    List PeriodRollup :=
  rollupLoop (fun d => start_of_week d week_start) none daily

/-- Model of `rollups::build_monthly_rollups` (grouping key:
`(year, month)`). -/
def build_monthly_rollups (daily : List DailyTotal) : List PeriodRollup :=
  rollupLoop (fun d => (yearOf d, monthOf d)) none daily

/-- Model of `rollups::build_yearly_rollups` (grouping key: `year`). -/
def build_yearly_rollups (daily : List DailyTotal) : List PeriodRollup :=
  rollupLoop (fun d => yearOf d) none daily

/-- Model of `rollups::build_rollups`. -/
def build_rollups (env : Env) (entries : List TimeEntry)
    (startD endD : Nat) (rounding : Option RoundingConfig)
    (week_start : WeekStart) : Rollups :=
  let daily := build_daily_totals
    (rollupTotals env entries startD endD rounding) startD endD
  Rollups.mk daily
    (build_weekly_rollups daily week_start)
    (build_monthly_rollups daily)
    (build_yearly_rollups daily)

/-! ### Cache store and refresh orchestrator (src/app.rs, src/storage.rs) -/

/-- Model of `models::Client` (aliased `TogglClientModel` in app.rs). -/
structure TogglClientModel where
  id : Nat
  name : String
deriving DecidableEq, Repr

/-- Model of `toggl::TogglError`. -/
inductive TogglError where
  | unauthorized
  | paymentRequired
  | rateLimited
  | serverError (message : String)
  | network (message : String)
deriving DecidableEq, Repr

/-- Model of `app::CacheReason`. -/
inductive CacheReason where
  | cacheOnly
  | quota
  | apiError
deriving DecidableEq, Repr

/-- The application modes touched by the orchestrator paths under
verification (`app::Mode` has further UI-only variants). -/
inductive Mode where
  | login
  | workspaceSelect
  | loading
  | dashboard
  | rollups
  | error
deriving DecidableEq, Repr

/-- Model of `storage::CachedData<T>`. -/
structure CachedData (α : Type) where
  data : α
  fetched_at : String
deriving DecidableEq, Repr

/-- Model of `storage::CacheFile`. -/
structure CacheFile where
  version : Nat
  token_hash : String
  workspaces : Option (CachedData (List Workspace))
  projects : List (Nat × CachedData (List Project))
  clients : List (Nat × CachedData (List TogglClientModel))
  time_entries : List (String × CachedData (List TimeEntry))
deriving DecidableEq, Repr

/-- Model of `storage::new_cache`. -/
def new_cache (token_hash : String) : CacheFile :=
  CacheFile.mk 1 token_hash none [] [] []

/-- Model of `storage::cache_key` (`format!("{workspace_id}|{start}|{end}")`). -/
def cache_key (workspace_id : Nat) (startS endS : String) : String :=
  toString workspace_id ++ "|" ++ startS ++ "|" ++ endS

/-- Digit accumulation for `str::parse::<u64>`. -/
def digitsVal : List Char → Nat → Option Nat
  | [], acc => some acc
  | c :: rest, acc =>
    if c.isDigit then digitsVal rest (acc * 10 + (c.toNat - 48)) else none

/-- Model of `str::parse::<u64>()`: optional leading `+`, at least one
digit, only digits, value below `2^64`. -/
def parse_u64 (s : String) : Option Nat :=
  let cs := match s.data with
    | '+' :: rest => rest
    | other => other
  match cs with
  | [] => none
  | _ => (digitsVal cs 0).bind (fun v => if v < 2 ^ 64 then some v else none)

/-- Full split of a character list on `'|'` (always at least one part). -/
def splitBar : List Char → List (List Char)
  | [] => [[]]
  | c :: rest =>
    let r := splitBar rest
    if c = '|' then [] :: r
    else
      match r with
      | [] => [[c]]
      | h :: t => (c :: h) :: t

/-- Model of `key.splitn(3, '|')` driven three times: succeeds exactly
when the key has at least three `|`-separated parts, the third part
being the un-split remainder. -/
def splitn3Bar (key : String) : Option (String × String × String) :=
  match splitBar key.data with
  | w :: s :: rest :: more =>
    some (String.mk w, String.mk s, String.mk (List.intercalate ['|'] (rest :: more)))
  | _ => none

/-- Model of `app::parse_cache_key_bounds`. -/
def parse_cache_key_bounds (env : Env) (key : String) :
    Option (Nat × Nat × Nat) :=
  match splitn3Bar key with
  | none => none
  | some (w, s, e) =>
    match parse_u64 w, env.parseDate s, env.parseDate e with
    | some wid, some sd, some ed => some (wid, sd, ed)
    | _, _, _ => none

/-- Model of `App::cached_time_entries` (exact-key lookup). -/
def cached_time_entries (cache : CacheFile) (workspace_id : Nat)
    (startS endS : String) : Option (CachedData (List TimeEntry)) :=
  assocGet cache.time_entries (cache_key workspace_id startS endS)

/-- Lexicographic-by-scalar-value order on character lists, the order
Rust's bytewise `str`/`String` `Ord` induces (UTF-8 preserves
scalar-value order). -/
def charsLtb : List Char → List Char → Bool
  | [], [] => false
  | [], _ :: _ => true
  | _ :: _, [] => false
  | a :: as, b :: bs =>
    if a < b then true else if b < a then false else charsLtb as bs

/-- String strict order used by the entry sort comparator. -/
def strLtb (a b : String) : Bool := charsLtb a.data b.data

/-- The non-strict form of the comparator
`left.start.cmp(&right.start).then(left.id.cmp(&right.id))` used to
sort merged cache entries: comparator result is not `Greater`. -/
def entryLe (a b : TimeEntry) : Prop :=
  strLtb a.start b.start = true ∨ (a.start = b.start ∧ a.id ≤ b.id)

instance : DecidableRel entryLe := fun _ _ => by
  unfold entryLe
  infer_instance

/-- `entries_by_id.insert(entry.id, entry.clone())`. -/
def insertById (m : List (Nat × TimeEntry)) (e : TimeEntry) :
    List (Nat × TimeEntry) :=
  assocInsert m e.id e

/-- Accumulator of the range-merge scan of
`cached_time_entries_for_range`: the `entries_by_id` map, the best
parsed `fetched_at` seen so far, and the raw string of the last
unparseable `fetched_at`. -/
structure RangeScanAcc where
  byId : List (Nat × TimeEntry)
  latestAt : Option Int
  latestRaw : Option String
deriving DecidableEq, Repr

/-- One iteration of the range-merge scan, for one stored
`(key, cached)` pair: skip keys that fail to parse or whose range does
not intersect the query, fold the date-filtered cached entries into
`entries_by_id`, and update the latest parsed / last raw timestamp. -/
def rangeScanStep (env : Env) (workspace_id sd ed : Nat)
    (acc : RangeScanAcc) (kv : String × CachedData (List TimeEntry)) :
    RangeScanAcc :=
  match parse_cache_key_bounds env kv.1 with
  | none => acc
  | some (cw, cs, ce) =>
    if cw ≠ workspace_id ∨ ce < sd ∨ cs > ed then acc
    else
      let byId := kv.2.data.foldl (fun m e =>
        match env.parseDate e.start with
        | none => m
        | some d => if sd ≤ d ∧ d ≤ ed then insertById m e else m) acc.byId
      match env.parseTime kv.2.fetched_at with
      | some t =>
        match acc.latestAt with
        | some current =>
          if t ≤ current then { acc with byId := byId }
          else { byId := byId, latestAt := some t, latestRaw := acc.latestRaw }
        | none => { byId := byId, latestAt := some t, latestRaw := acc.latestRaw }
      | none => { byId := byId, latestAt := acc.latestAt, latestRaw := some kv.2.fetched_at }

/-- Model of `App::cached_time_entries_for_range`: exact lookup first,
else the range-merge scan over all stored ranges, returning the merged,
date-filtered, id-deduplicated entries sorted by `(start, id)` together
with the synthesized fetch timestamp. -/
def cached_time_entries_for_range (env : Env) (cache : CacheFile)
    (workspace_id : Nat) (startS endS : String) :
    Option (CachedData (List TimeEntry)) :=
  match cached_time_entries cache workspace_id startS endS with
  | some cached => some cached
  | none =>
    match env.parseDate startS, env.parseDate endS with
    | some sd, some ed =>
      let acc := cache.time_entries.foldl
        (rangeScanStep env workspace_id sd ed) (RangeScanAcc.mk [] none none)
      if acc.byId = [] then none
      else
        let entries := (acc.byId.map (fun kv => kv.2)).insertionSort entryLe
        let fetched_at :=
          ((acc.latestAt.map env.toRfc).orElse (fun _ => acc.latestRaw)).getD env.now
        some (CachedData.mk entries fetched_at)
    | _, _ => none

/-- Specification-side predicate (from the spec's words): the stored
ranges kept by the range-merge scan — key parses, workspace matches,
and `[cached_start, cached_end]` intersects the queried `[sd, ed]`. -/
def rangeIntersects (env : Env) (workspace_id sd ed : Nat)
    (kv : String × CachedData (List TimeEntry)) : Bool :=
  match parse_cache_key_bounds env kv.1 with
  | some b => decide (b.1 = workspace_id ∧ ¬ (b.2.2 < sd) ∧ ¬ (b.2.1 > ed))
  | none => false

/-- Specification-side list of the contributing (intersecting) stored
ranges, in scan order. -/
def intersectingRanges (env : Env) (cache : CacheFile)
    (workspace_id sd ed : Nat) :
    List (String × CachedData (List TimeEntry)) :=
  cache.time_entries.filter (rangeIntersects env workspace_id sd ed)

/-- Specification-side predicate: a cached entry whose own parsed date
falls inside the queried `[sd, ed]`. -/
def entryInWindow (env : Env) (sd ed : Nat) (e : TimeEntry) : Bool :=
  match env.parseDate e.start with
  | some d => decide (sd ≤ d ∧ d ≤ ed)
  | none => false

/-- Specification-side candidate stream of the range merge: the
date-filtered entries of every intersecting range, in scan order. -/
def mergeCandidates (env : Env) (cache : CacheFile)
    (workspace_id sd ed : Nat) : List TimeEntry :=
  (intersectingRanges env cache workspace_id sd ed).flatMap
    (fun kv => kv.2.data.filter (entryInWindow env sd ed))

/-- Specification-side rendering of "deduplicates by entry id with
last-write-wins": `x` is the last candidate carrying its id. -/
def lastWriteWins (cands : List TimeEntry) (x : TimeEntry) : Prop :=
  ∃ l1 l2, cands = l1 ++ x :: l2 ∧ ∀ y ∈ l2, y.id ≠ x.id

/-- Maximum of an optional current best and a new timestamp. -/
def optMax : Option Int → Int → Option Int
  | some m, t => some (max m t)
  | none, t => some t

/-- Specification-side "most recent of the contributing ranges'
timestamps": the maximum of the parseable `fetched_at` values. -/
def latestParsedTime (env : Env)
    (rs : List (String × CachedData (List TimeEntry))) : Option Int :=
  rs.foldl (fun acc kv =>
    match env.parseTime kv.2.fetched_at with
    | some t => optMax acc t
    | none => acc) none

/-- Specification-side fallback timestamp: the raw `fetched_at` string
of the last contributing range whose timestamp does not parse. -/
def lastRawTimestamp (env : Env)
    (rs : List (String × CachedData (List TimeEntry))) : Option String :=
  ((rs.filter (fun kv => env.parseTime kv.2.fetched_at = none)).map
    (fun kv => kv.2.fetched_at)).getLast?

/-- The orchestrator-owned application state touched by the refresh
paths: credential, cache file, quota ledger counter, UI mode and
status line.  Synchronous persistence writes (`write_cache`,
`write_quota`) mirror this in-memory state and are not modelled
separately. -/
structure AppSt where
  token : Option String
  token_hash : Option String
  cache : Option CacheFile
  quotaUsed : Nat
  mode : Mode
  status : Option String
deriving DecidableEq, Repr

/-- Model of `app::CALL_LIMIT`. -/
def CALL_LIMIT : Nat := 30

/-- Model of `App::quota_remaining` (`saturating_sub` is `Nat`
subtraction). -/
def quota_remaining (st : AppSt) : Nat := CALL_LIMIT - st.quotaUsed

/-- Model of `App::consume_quota` (`saturating_add(1).min(CALL_LIMIT)`). -/
def consume_quota (st : AppSt) : AppSt :=
  { st with quotaUsed := min (st.quotaUsed + 1) CALL_LIMIT }

/-- Model of `App::handle_error`: `Unauthorized` clears token, hash and
cache and returns to login; every other remote error surfaces an error
mode with the corresponding message. -/
def handle_error (st : AppSt) (err : TogglError) : AppSt :=
  match err with
  | .unauthorized =>
    { st with token := none, token_hash := none, cache := none,
              mode := .login, status := some "Invalid token. Please login." }
  | .paymentRequired =>
    { st with mode := .error, status := some "Toggl API error: 402 Payment Required" }
  | .rateLimited =>
    { st with mode := .error, status := some "Toggl API rate limit reached." }
  | .serverError message => { st with mode := .error, status := some message }
  | .network message => { st with mode := .error, status := some message }

/-- Model of `App::cache_mut`'s read side: the existing cache file or a
fresh one keyed by the current token hash. -/
def cacheOf (st : AppSt) : CacheFile :=
  st.cache.getD (new_cache (st.token_hash.getD ""))

/-- Model of `App::update_cache_workspaces`. -/
def update_cache_workspaces (env : Env) (st : AppSt)
    (workspaces : List Workspace) : AppSt :=
  let c := cacheOf st
  { st with cache := some { c with workspaces := some (CachedData.mk workspaces env.now) } }

/-- Model of `App::update_cache_projects`. -/
def update_cache_projects (env : Env) (st : AppSt) (workspace_id : Nat)
    (projects : List Project) : AppSt :=
  let c := cacheOf st
  let entry := CachedData.mk projects env.now
  let c' := { c with projects := assocInsert c.projects workspace_id entry }
  { st with cache := some c' }

/-- Model of `App::update_cache_time_entries`. -/
def update_cache_time_entries (env : Env) (st : AppSt) (workspace_id : Nat)
    (startS endS : String) (entries : List TimeEntry) : AppSt :=
  let key := cache_key workspace_id startS endS
  let c := cacheOf st
  let entry := CachedData.mk entries env.now
  let c' := { c with time_entries := assocInsert c.time_entries key entry }
  { st with cache := some c' }

/-- Model of `App::no_cache_message`. -/
def no_cache_message : String := "No cached data available. Press r to fetch."

/-- Model of `App::quota_message`. -/
def quota_message (st : AppSt) : String :=
  if quota_remaining st = 0 then
    "Quota reached (" ++ toString st.quotaUsed ++ "/" ++ toString CALL_LIMIT ++ ")."
  else
    "Quota low (remaining " ++ toString (quota_remaining st) ++ "/" ++
      toString CALL_LIMIT ++ ")."

/-- Model of `App::quota_exhausted_message`. -/
def quota_exhausted_message (st : AppSt) : String :=
  quota_message st ++ " No cached data available."

/-- Result of one resource-resolution step: the resolved value (`None`
when the step failed and set an error/login mode), the state after the
step, the threaded `cache_reason` out-parameter, and whether the Remote
Data Source was called during the step. -/
structure Resolution (α : Type) where
  result : Option α
  st : AppSt
  reason : Option CacheReason
  apiCalled : Bool

/-- Model of `App::resolve_workspaces`.  The remote call is modelled by
its result `fetchW`; `_cache_timestamp` is unused by the source for
this resource. -/
def resolve_workspaces (env : Env) (st : AppSt) (allow_api : Bool)
    (reason : Option CacheReason)
    (fetchW : Except TogglError (List Workspace)) :
    Resolution (List Workspace) :=
  match st.cache.bind (fun c => c.workspaces) with
  | some cached => Resolution.mk (some cached.data) st reason false
  | none =>
    if allow_api = false then
      let reason' := if reason = none then some CacheReason.cacheOnly else reason
      Resolution.mk none
        { st with mode := .error, status := some no_cache_message } reason' false
    else
      match fetchW with
      | .ok workspaces =>
        Resolution.mk (some workspaces)
          (update_cache_workspaces env st workspaces) reason true
      | .error err => Resolution.mk none (handle_error st err) reason true

/-- Model of `App::resolve_projects` (same shape as
`resolve_workspaces`, with the per-workspace project cache). -/
def resolve_projects (env : Env) (st : AppSt) (allow_api : Bool)
    (workspace_id : Nat) (reason : Option CacheReason)
    (fetchP : Except TogglError (List Project)) :
    Resolution (List Project) :=
  match st.cache.bind (fun c => assocGet c.projects workspace_id) with
  | some cached => Resolution.mk (some cached.data) st reason false
  | none =>
    if allow_api = false then
      let reason' := if reason = none then some CacheReason.cacheOnly else reason
      Resolution.mk none
        { st with mode := .error, status := some no_cache_message } reason' false
    else
      match fetchP with
      | .ok projects =>
        Resolution.mk (some projects)
          (update_cache_projects env st workspace_id projects) reason true
      | .error err => Resolution.mk none (handle_error st err) reason true

/-- Result of `resolve_time_entries`, which additionally threads the
`cache_timestamp` out-parameter. -/
structure ResolutionT where
  result : Option (List TimeEntry)
  st : AppSt
  reason : Option CacheReason
  cacheTimestamp : Option String
  apiCalled : Bool

/-- The cache-fallback tail of `resolve_time_entries` (the code after
the `allow_api` block): range-merge lookup, else the error state
distinguishing a pending API error, exhausted quota, and plain cache
miss. -/
def timeEntriesFallback (env : Env) (st : AppSt) (workspace_id : Nat)
    (startS endS : String) (reason : Option CacheReason)
    (ts0 : Option String) (api_error : Option TogglError)
    (apiCalled : Bool) : ResolutionT :=
  match st.cache.bind
      (fun c => cached_time_entries_for_range env c workspace_id startS endS) with
  | some cached =>
    ResolutionT.mk (some cached.data) st reason (some cached.fetched_at) apiCalled
  | none =>
    match api_error with
    | some err => ResolutionT.mk none (handle_error st err) reason ts0 apiCalled
    | none =>
      if reason = some CacheReason.quota then
        ResolutionT.mk none
          { st with mode := .error, status := some (quota_exhausted_message st) }
          reason ts0 apiCalled
      else
        ResolutionT.mk none
          { st with mode := .error, status := some no_cache_message }
          reason ts0 apiCalled

/-- Model of `App::resolve_time_entries`: with `allow_api` and quota
left, consume one quota unit and call the Remote Data Source, writing
through on success; `Unauthorized` aborts via `handle_error`; other
remote errors record `ApiError` and fall through to cache; with quota
exhausted record `Quota`, without `allow_api` record `CacheOnly`, both
skipping the call and falling back to cache. -/
def resolve_time_entries (env : Env) (st : AppSt) (allow_api : Bool)
    (workspace_id : Nat) (startS endS : String)
    (reason : Option CacheReason) (ts0 : Option String)
    (fetchT : Except TogglError (List TimeEntry)) : ResolutionT :=
  if allow_api then
    if quota_remaining st = 0 then
      let reason' := if reason = none then some CacheReason.quota else reason
      timeEntriesFallback env st workspace_id startS endS reason' ts0 none false
    else
      let st' := consume_quota st
      match fetchT with
      | .ok entries =>
        ResolutionT.mk (some entries)
          (update_cache_time_entries env st' workspace_id startS endS entries)
          reason ts0 true
      | .error .unauthorized =>
        ResolutionT.mk none (handle_error st' .unauthorized) reason ts0 true
      | .error err =>
        let reason' := if reason = none then some CacheReason.apiError else reason
        timeEntriesFallback env st' workspace_id startS endS reason' ts0
          (some err) true
  else
    let reason' := if reason = none then some CacheReason.cacheOnly else reason
    timeEntriesFallback env st workspace_id startS endS reason' ts0 none false

/-! ### Targeted re-fetch (src/app.rs, `execute_rollup_refetch`) -/

/-- The `while current <= end` loop of `date_span`, with the iteration
count explicit (as for `dailyTotalsLoop`). -/
def dateSpanLoop : Nat → Nat → List Nat
  | 0, _ => []
  | n + 1, cur => cur :: dateSpanLoop n (cur + 1)

/-- Model of `app::date_span`. -/
def date_span (startD endD : Nat) : List Nat :=
  dateSpanLoop (endD + 1 - startD) startD

/-- The day-by-day loop of `execute_rollup_refetch`: per day, stop when
the local quota is exhausted, otherwise consume one quota unit and
fetch the single-day range (`dayRfc` models
`DateRange::from_bounds(day, day).as_rfc3339()`), writing through to
the cache on success; the four recoverable errors stop the loop with
their message, `Unauthorized` aborts through `handle_error`.  Returns
the state, the fetched days, the stop reason, and the aborted flag. -/
def refetchLoop (env : Env) (fetch : Nat → Except TogglError (List TimeEntry))
    (workspace_id : Nat) (dayRfc : Nat → String × String) :
    List Nat → AppSt → List Nat →
    AppSt × List Nat × Option String × Bool
  | [], st, fetched => (st, fetched, none, false)
  | day :: rest, st, fetched =>
    if quota_remaining st = 0 then
      (st, fetched, some "local quota reached", false)
    else
      let st' := consume_quota st
      let p := dayRfc day
      match fetch day with
      | .ok entries =>
        refetchLoop env fetch workspace_id dayRfc rest
          (update_cache_time_entries env st' workspace_id p.1 p.2 entries)
          (fetched ++ [day])
      | .error .unauthorized =>
        (handle_error st' .unauthorized, fetched, none, true)
      | .error .paymentRequired =>
        (st', fetched, some "Toggl returned 402 Payment Required", false)
      | .error .rateLimited =>
        (st', fetched, some "Toggl rate limit reached", false)
      | .error (.serverError message) => (st', fetched, some message, false)
      | .error (.network message) => (st', fetched, some message, false)

/-- Outcome of a targeted re-fetch: final state, days reported fetched,
days reported skipped, surfaced stop reason, and whether the operation
aborted to login on `Unauthorized`. -/
structure RefetchOutcome where
  st : AppSt
  fetchedDays : List Nat
  skippedDays : List Nat
  stopReason : Option String
  aborted : Bool

/-- Model of `App::execute_rollup_refetch` for a present plan, token
and selected workspace (the source's early returns for their absence
are caller-side guards); `st.quotaUsed` is the value after
`ensure_quota_today`.  On the non-aborted paths the mode is set to
`Loading` and a full fetch reports no skipped days, while a partial
fetch reports the un-fetched suffix of the span and the stop reason
(`"fetch interrupted"` when none was recorded). -/
def execute_rollup_refetch (env : Env)
    (fetch : Nat → Except TogglError (List TimeEntry))
    (workspace_id : Nat) (dayRfc : Nat → String × String)
    (startD endD : Nat) (st : AppSt) : RefetchOutcome :=
  let dates := date_span startD endD
  let r := refetchLoop env fetch workspace_id dayRfc dates st []
  let st1 := r.1
  let fetched := r.2.1
  let stopReason := r.2.2.1
  let aborted := r.2.2.2
  if aborted then RefetchOutcome.mk st1 fetched [] none true
  else
    let st2 := { st1 with mode := .loading }
    if fetched.length = dates.length then
      RefetchOutcome.mk st2 fetched [] none false
    else
      RefetchOutcome.mk st2 fetched (dates.drop fetched.length)
        (some (stopReason.getD "fetch interrupted")) false

/-- The stop reasons `execute_rollup_refetch` records for the four
recoverable remote errors (never invoked at `Unauthorized`, which
aborts instead). -/
def stopMessage : TogglError → String
  | .paymentRequired => "Toggl returned 402 Payment Required"
  | .rateLimited => "Toggl rate limit reached"
  | .serverError message => message
  | .network message => message
  | .unauthorized => ""

/-! ### Concrete instances used by the verification witnesses -/

/-- A small concrete environment for witnesses: a finite table of
parseable dates (day numbers) and timestamps. -/
def witnessEnv : Env := Env.mk
  (fun str =>
    if str = "S" then some 10 else if str = "E" then some 12
    else if str = "s1" then some 10 else if str = "s2" then some 11
    else if str = "s3" then some 13 else if str = "A" then some 9
    else if str = "B" then some 11 else if str = "C" then some 10
    else if str = "D" then some 14 else none)
  (fun str =>
    if str = "t1" then some 5 else if str = "t2" then some 9 else none)
  (fun t => "R" ++ toString t)
  "NOW"

/-- Witness entry: id 1, first (older) version. -/
def witnessE1 : TimeEntry := TimeEntry.mk 1 (some "old") 100 "s1" (some "x") none

/-- Witness entry: id 1, second (newer) version from the
later-written overlapping range. -/
def witnessE1b : TimeEntry := TimeEntry.mk 1 (some "new") 200 "s1" (some "x") none

/-- Witness entry: id 2. -/
def witnessE2 : TimeEntry := TimeEntry.mk 2 none 300 "s2" (some "x") none

/-- Witness entry: id 3, dated outside the queried window. -/
def witnessE3 : TimeEntry := TimeEntry.mk 3 none 400 "s3" (some "x") none

/-- A concrete cache with two overlapping stored ranges for workspace 7
(days 9–11 and 10–14) sharing the duplicate entry id 1. -/
def witnessCache : CacheFile := CacheFile.mk 1 "h" none [] []
  [("7|A|B", CachedData.mk [witnessE1, witnessE3] "t1"),
   ("7|C|D", CachedData.mk [witnessE1b, witnessE2] "t2")]

/-- A concrete cache file holding a cached workspace list. -/
def witnessCacheW : CacheFile := CacheFile.mk 1 "h"
  (some (CachedData.mk [Workspace.mk 1 "W1"] "t1")) [] [] []

/-- A concrete application state with cached workspaces and a fresh
quota. -/
def witnessStCachedW : AppSt :=
  AppSt.mk (some "tok") (some "h") (some witnessCacheW) 0 .dashboard none

/-- A concrete application state with no cache and a fresh quota. -/
def witnessStEmpty : AppSt :=
  AppSt.mk (some "tok") (some "h") none 0 .dashboard none

/-! ## Theorems -/

/-! ### Rounding engine lemmas -/

/-- The rounded magnitude is always a multiple of the increment. -/
theorem roundMagnitude_dvd (a inc : Nat) (m : RoundingMode) :
    inc ∣ roundMagnitude a inc m := by
  unfold roundMagnitude
  match m with
  | .down => exact Dvd.intro_left _ rfl
  | .up =>
    by_cases h : a % inc = 0
    · rw [if_pos h]
      exact Nat.dvd_of_mod_eq_zero h
    · rw [if_neg h]
      exact Dvd.intro_left _ rfl
  | .closest =>
    by_cases h : a % inc = 0 <;> simp only [h, if_true, if_false] <;>
      split <;>
      first
      | exact Dvd.intro_left _ rfl
      | exact Dvd.dvd.add (Dvd.intro_left _ rfl) dvd_rfl

/-- Rounding a magnitude that is already a multiple of the increment
returns it unchanged. -/
theorem roundMagnitude_of_dvd (a inc : Nat) (m : RoundingMode)
    (h : inc ∣ a) : roundMagnitude a inc m = a := by
  have hmod : a % inc = 0 := Nat.mod_eq_zero_of_dvd h
  have hdm : a / inc * inc = a := Nat.div_mul_cancel h
  unfold roundMagnitude
  match m with
  | .down => exact hdm
  | .up => simp [hmod]
  | .closest => simp [hmod, hdm]

/-- Evaluation of `round_seconds` on a non-negative input with a
non-zero increment. -/
theorem round_seconds_ofNat (n : Nat) (cfg : RoundingConfig)
    (h : cfg.increment_minutes ≠ 0) :
    round_seconds (n : Int) cfg =
      (roundMagnitude n (cfg.increment_minutes * 60) cfg.mode : Int) := by
  have hinc : cfg.increment_minutes * 60 ≠ 0 := Nat.mul_ne_zero h (by norm_num)
  have hneg : ¬ ((n : Int) < 0) := by exact_mod_cast Int.not_lt.mpr (Int.ofNat_nonneg n)
  unfold round_seconds
  simp [h, hinc, hneg]

/-- Rounding a value whose magnitude is already a multiple of the
increment returns it unchanged. -/
theorem round_seconds_of_dvd_natAbs (v : Int) (cfg : RoundingConfig)
    (hdvd : cfg.increment_minutes * 60 ∣ v.natAbs) :
    round_seconds v cfg = v := by
  by_cases h0 : cfg.increment_minutes = 0
  · unfold round_seconds
    simp [h0]
  · have hinc : cfg.increment_minutes * 60 ≠ 0 :=
      Nat.mul_ne_zero h0 (by norm_num)
    unfold round_seconds
    simp only [h0, if_false, hinc]
    rw [roundMagnitude_of_dvd _ _ _ hdvd]
    by_cases hv : v < 0
    · have : (v.natAbs : Int) = -v := Int.ofNat_natAbs_of_nonpos (le_of_lt hv)
      simp [hv, this]
    · have : (v.natAbs : Int) = v := Int.natAbs_of_nonneg (not_lt.mp hv)
      simp [hv, this]

/-- Claim C4: rounding is idempotent; for every seconds value, every
increment and every mode, `round_seconds(round_seconds(x, cfg), cfg) =
round_seconds(x, cfg)`. -/
theorem round_seconds_idempotent (x : Int) (cfg : RoundingConfig) :
    round_seconds (round_seconds x cfg) cfg = round_seconds x cfg := by
  by_cases h0 : cfg.increment_minutes = 0
  · unfold round_seconds
    simp [h0]
  · have hinc : cfg.increment_minutes * 60 ≠ 0 :=
      Nat.mul_ne_zero h0 (by norm_num)
    apply round_seconds_of_dvd_natAbs
    have hval : round_seconds x cfg =
        (roundMagnitude x.natAbs (cfg.increment_minutes * 60) cfg.mode : Int) *
          (if x < 0 then -1 else 1) := by
      unfold round_seconds
      simp [h0, hinc]
    rw [hval, Int.natAbs_mul]
    have h1 : (if x < 0 then (-1 : Int) else 1).natAbs = 1 := by
      split <;> rfl
    rw [h1, Nat.mul_one, Int.natAbs_ofNat]
    exact roundMagnitude_dvd _ _ _

/-- Claim C6: rounding preserves sign: `round_seconds(-x, cfg) =
-round_seconds(x, cfg)` for every value, mode and increment (the source
works on the absolute value and restores the original sign, with `0`
its own sign). -/
theorem round_seconds_neg_sign (x : Int) (cfg : RoundingConfig) :
    round_seconds (-x) cfg = - round_seconds x cfg := by
  by_cases h0 : cfg.increment_minutes = 0
  · unfold round_seconds
    simp [h0]
  · have hinc : cfg.increment_minutes * 60 ≠ 0 :=
      Nat.mul_ne_zero h0 (by norm_num)
    unfold round_seconds
    simp only [h0, if_false, hinc, Int.natAbs_neg]
    rcases lt_trichotomy x 0 with hx | hx | hx
    · have h1 : ¬ (-x < 0) := by omega
      have h2 : x < 0 := hx
      simp [h1, h2]
    · subst hx
      have hz : roundMagnitude 0 (cfg.increment_minutes * 60)
          cfg.mode = 0 := roundMagnitude_of_dvd _ _ _ (dvd_zero _)
      simp [hz]
    · have h1 : -x < 0 := by omega
      have h2 : ¬ (x < 0) := by omega
      simp [h1, h2]

/-- In `Closest` mode, a magnitude that is not aligned and whose
distance to the upper multiple is at most its distance to the lower
multiple rounds to the upper multiple. -/
theorem roundMagnitude_closest_up (x inc : Nat) (_hinc : 0 < inc)
    (hmod : x % inc ≠ 0) (hdist : inc - x % inc ≤ x % inc) :
    roundMagnitude x inc .closest = (x / inc + 1) * inc := by
  unfold roundMagnitude
  simp only [hmod, if_false]
  have he : x / inc * inc + x % inc = x := by
    rw [mul_comm]
    exact Nat.div_add_mod x inc
  have hcond : x / inc * inc + inc - x ≤ x - x / inc * inc := by omega
  rw [if_pos hcond]
  ring

/-- Claim C5: `Closest`-mode tie-break: a duration lying exactly
`I*60/2` seconds past a multiple of `I*60` rounds to the next multiple,
and in general whenever the distance to the upper multiple is at most
the distance to the lower multiple the upper multiple is chosen (ties
round up). -/
theorem round_seconds_closest_ties_up (I k : Nat) (hI : 0 < I) :
    round_seconds ((k * (I * 60) + I * 30 : Nat) : Int)
        (RoundingConfig.mk I .closest) = ((k + 1) * (I * 60) : Nat) ∧
    ∀ x : Nat, x % (I * 60) ≠ 0 → I * 60 - x % (I * 60) ≤ x % (I * 60) →
      round_seconds (x : Int) (RoundingConfig.mk I .closest) =
        ((x / (I * 60) + 1) * (I * 60) : Nat) := by
  have hne : (RoundingConfig.mk I .closest).increment_minutes ≠ 0 :=
    Nat.pos_iff_ne_zero.mp hI
  have hincpos : 0 < I * 60 := by omega
  have general : ∀ x : Nat, x % (I * 60) ≠ 0 →
      I * 60 - x % (I * 60) ≤ x % (I * 60) →
      round_seconds (x : Int) (RoundingConfig.mk I .closest) =
        ((x / (I * 60) + 1) * (I * 60) : Nat) := by
    intro x hmod hdist
    rw [round_seconds_ofNat _ _ hne]
    exact_mod_cast congrArg (Nat.cast : Nat → Int)
      (roundMagnitude_closest_up x (I * 60) hincpos hmod hdist)
  refine ⟨?_, general⟩
  have hlt : I * 30 < I * 60 := by omega
  have hmodv : (k * (I * 60) + I * 30) % (I * 60) = I * 30 := by
    rw [mul_comm k (I * 60), Nat.mul_add_mod]
    exact Nat.mod_eq_of_lt hlt
  have hdivv : (k * (I * 60) + I * 30) / (I * 60) = k := by
    rw [mul_comm k (I * 60), Nat.mul_add_div hincpos]
    simp [Nat.div_eq_of_lt hlt]
  have h := general (k * (I * 60) + I * 30)
    (by rw [hmodv]; omega) (by rw [hmodv]; omega)
  rw [h, hdivv]

/-- Witness for claim C5 at `I = 15`, `k = 0`: 450 seconds (7.5 min)
round up to 900 (15 min). -/
theorem round_seconds_closest_ties_up_witness :
    round_seconds ((0 * (15 * 60) + 15 * 30 : Nat) : Int)
        (RoundingConfig.mk 15 .closest) = ((0 + 1) * (15 * 60) : Nat) :=
  (round_seconds_closest_ties_up 15 0 (by decide)).1

/-! ### Association-list lemmas -/

/-- A successful lookup is a member of the list. -/
theorem assocGet_mem {κ β : Type} [DecidableEq κ] {m : List (κ × β)}
    {k : κ} {v : β} (h : assocGet m k = some v) : (k, v) ∈ m := by
  induction m with
  | nil => simp [assocGet] at h
  | cons kv rest ih =>
    rw [assocGet] at h
    by_cases hk : kv.1 = k
    · rw [if_pos hk] at h
      injection h with h2
      subst h2
      subst hk
      exact List.mem_cons_self _ _
    · rw [if_neg hk] at h
      exact List.mem_cons_of_mem _ (ih h)

/-- With pairwise-distinct keys, every member is found by lookup. -/
theorem assocGet_of_mem_nodup {κ β : Type} [DecidableEq κ]
    {m : List (κ × β)} (hnd : (m.map Prod.fst).Nodup) {k : κ} {v : β}
    (h : (k, v) ∈ m) : assocGet m k = some v := by
  induction m with
  | nil => simp at h
  | cons kv rest ih =>
    rw [List.map_cons, List.nodup_cons] at hnd
    rcases List.mem_cons.mp h with heq | hmem
    · subst heq
      simp [assocGet]
    · have hne : kv.1 ≠ k := by
        intro habs
        exact hnd.1 (habs ▸ List.mem_map_of_mem Prod.fst hmem)
      rw [assocGet, if_neg hne]
      exact ih hnd.2 hmem

/-- A failed lookup means the key is absent. -/
theorem assocGet_eq_none_iff {κ β : Type} [DecidableEq κ]
    {m : List (κ × β)} {k : κ} :
    assocGet m k = none ↔ k ∉ m.map Prod.fst := by
  induction m with
  | nil => simp [assocGet]
  | cons kv rest ih =>
    rw [assocGet]
    by_cases hk : kv.1 = k
    · simp [hk]
    · simp [hk, ih, Ne.symm hk]

/-- Lookup after insert at the inserted key. -/
theorem assocGet_insert_self {κ β : Type} [DecidableEq κ]
    (m : List (κ × β)) (k : κ) (v : β) :
    assocGet (assocInsert m k v) k = some v := by
  induction m with
  | nil => simp [assocInsert, assocGet]
  | cons kv rest ih =>
    rw [assocInsert]
    by_cases hk : kv.1 = k
    · simp [assocGet, hk]
    · rw [if_neg hk, assocGet, if_neg hk]
      exact ih

/-- Lookup after insert at a different key. -/
theorem assocGet_insert_ne {κ β : Type} [DecidableEq κ]
    (m : List (κ × β)) (k k' : κ) (v : β) (h : k' ≠ k) :
    assocGet (assocInsert m k v) k' = assocGet m k' := by
  induction m with
  | nil => simp [assocInsert, assocGet, Ne.symm h]
  | cons kv rest ih =>
    rw [assocInsert]
    by_cases hk : kv.1 = k
    · rw [if_pos hk]
      have hne : kv.1 ≠ k' := by
        rw [hk]
        exact fun habs => h habs.symm
      rw [assocGet, assocGet, if_neg hne, if_neg hne]
    · rw [if_neg hk, assocGet, assocGet]
      by_cases hk' : kv.1 = k'
      · rw [if_pos hk', if_pos hk']
      · rw [if_neg hk', if_neg hk']
        exact ih

/-- The key list after an insert: unchanged when the key was present,
extended by the key otherwise. -/
theorem assocInsert_fst {κ β : Type} [DecidableEq κ]
    (m : List (κ × β)) (k : κ) (v : β) :
    (assocInsert m k v).map Prod.fst =
      if k ∈ m.map Prod.fst then m.map Prod.fst
      else m.map Prod.fst ++ [k] := by
  induction m with
  | nil => simp [assocInsert]
  | cons kv rest ih =>
    rw [assocInsert]
    by_cases hk : kv.1 = k
    · simp [hk]
    · simp only [if_neg hk, List.map_cons, ih]
      by_cases hmem : k ∈ rest.map Prod.fst
      · simp [hmem, Ne.symm hk]
      · simp [hmem, Ne.symm hk]

/-- Insert preserves distinctness of keys. -/
theorem assocInsert_nodup {κ β : Type} [DecidableEq κ]
    {m : List (κ × β)} (hnd : (m.map Prod.fst).Nodup) (k : κ) (v : β) :
    ((assocInsert m k v).map Prod.fst).Nodup := by
  rw [assocInsert_fst]
  by_cases hmem : k ∈ m.map Prod.fst
  · simpa [hmem] using hnd
  · simp [hmem, List.nodup_append, hnd]

/-! ### Grouping engine lemmas -/

/-- Lookup in a bumped description map. -/
theorem bumpInner_get (m : List (String × Int)) (d : String) (v : Int)
    (d' : String) :
    assocGet (bumpInner m d v) d' =
      if d' = d then some ((assocGet m d).getD 0 + v) else assocGet m d' := by
  induction m with
  | nil =>
    by_cases h : d' = d
    · simp [bumpInner, assocGet, h]
    · have h' : ¬ d = d' := fun habs => h habs.symm
      simp [bumpInner, assocGet, h, h']
  | cons dv rest ih =>
    obtain ⟨d0, v0⟩ := dv
    by_cases h0 : d0 = d
    · subst h0
      by_cases h1 : d' = d0
      · subst h1
        simp [bumpInner, assocGet]
      · have h2 : ¬ d0 = d' := fun habs => h1 habs.symm
        simp [bumpInner, assocGet, h1, h2]
    · by_cases h1 : d' = d
      · subst h1
        have h2 : ¬ d0 = d' := h0
        simp [bumpInner, assocGet, h0, h2, ih]
      · by_cases h2 : d0 = d'
        · subst h2
          simp [bumpInner, assocGet, h0, h1]
        · simp [bumpInner, assocGet, h0, h1, h2, ih]

/-- The key list of a bumped description map. -/
theorem bumpInner_fst (m : List (String × Int)) (d : String) (v : Int) :
    (bumpInner m d v).map Prod.fst =
      if d ∈ m.map Prod.fst then m.map Prod.fst
      else m.map Prod.fst ++ [d] := by
  induction m with
  | nil => simp [bumpInner]
  | cons dv rest ih =>
    obtain ⟨d0, v0⟩ := dv
    by_cases h0 : d0 = d
    · simp [bumpInner, h0]
    · simp only [bumpInner, if_neg h0, List.map_cons, ih]
      by_cases hmem : d ∈ rest.map Prod.fst
      · simp [hmem, Ne.symm h0]
      · simp [hmem, Ne.symm h0]

/-- Bumping preserves distinctness of description keys. -/
theorem bumpInner_nodup {m : List (String × Int)}
    (hnd : (m.map Prod.fst).Nodup) (d : String) (v : Int) :
    ((bumpInner m d v).map Prod.fst).Nodup := by
  rw [bumpInner_fst]
  by_cases hmem : d ∈ m.map Prod.fst
  · simpa [hmem] using hnd
  · simp [hmem, List.nodup_append, hnd]

/-- Lookup in the outer grouping map after a bump. -/
theorem bumpOuter_get (g : List (Option Nat × List (String × Int)))
    (pk : Option Nat) (d : String) (v : Int) (pid : Option Nat) :
    assocGet (bumpOuter g pk d v) pid =
      if pid = pk then some (bumpInner ((assocGet g pk).getD []) d v)
      else assocGet g pid := by
  induction g with
  | nil =>
    by_cases h : pid = pk
    · simp [bumpOuter, assocGet, h]
    · have h' : ¬ pk = pid := fun habs => h habs.symm
      simp [bumpOuter, assocGet, h, h']
  | cons pg rest ih =>
    obtain ⟨p0, inner0⟩ := pg
    by_cases h0 : p0 = pk
    · subst h0
      by_cases h1 : pid = p0
      · subst h1
        simp [bumpOuter, assocGet]
      · have h2 : ¬ p0 = pid := fun habs => h1 habs.symm
        simp [bumpOuter, assocGet, h1, h2]
    · by_cases h1 : pid = pk
      · subst h1
        have h2 : ¬ p0 = pid := h0
        simp [bumpOuter, assocGet, h0, h2, ih]
      · by_cases h2 : p0 = pid
        · subst h2
          simp [bumpOuter, assocGet, h0, h1]
        · simp [bumpOuter, assocGet, h0, h1, h2, ih]

/-- The key list of the outer grouping map after a bump. -/
theorem bumpOuter_fst (g : List (Option Nat × List (String × Int)))
    (pk : Option Nat) (d : String) (v : Int) :
    (bumpOuter g pk d v).map Prod.fst =
      if pk ∈ g.map Prod.fst then g.map Prod.fst
      else g.map Prod.fst ++ [pk] := by
  induction g with
  | nil => simp [bumpOuter]
  | cons pg rest ih =>
    obtain ⟨p0, inner0⟩ := pg
    by_cases h0 : p0 = pk
    · simp [bumpOuter, h0]
    · simp only [bumpOuter, if_neg h0, List.map_cons, ih]
      by_cases hmem : pk ∈ rest.map Prod.fst
      · simp [hmem, Ne.symm h0]
      · simp [hmem, Ne.symm h0]

/-- Bumping preserves distinctness of the outer keys. -/
theorem bumpOuter_nodup {g : List (Option Nat × List (String × Int))}
    (hnd : (g.map Prod.fst).Nodup) (pk : Option Nat) (d : String) (v : Int) :
    ((bumpOuter g pk d v).map Prod.fst).Nodup := by
  rw [bumpOuter_fst]
  by_cases hmem : pk ∈ g.map Prod.fst
  · simpa [hmem] using hnd
  · simp [hmem, List.nodup_append, hnd]

/-- Every slot of a bumped outer map is an old slot or carries a bumped
(or freshly created) description map. -/
theorem bumpOuter_mem (g : List (Option Nat × List (String × Int)))
    (pk : Option Nat) (d : String) (v : Int) :
    ∀ pg ∈ bumpOuter g pk d v, pg ∈ g ∨
      ∃ inner, pg.2 = bumpInner inner d v ∧
        (inner = [] ∨ ∃ pg' ∈ g, pg'.2 = inner) := by
  induction g with
  | nil =>
    intro pg hpg
    rw [bumpOuter] at hpg
    rcases List.mem_singleton.mp hpg with h
    right
    exact ⟨[], by rw [h], Or.inl rfl⟩
  | cons pg0 rest ih =>
    obtain ⟨p0, inner0⟩ := pg0
    intro pg hpg
    rw [bumpOuter] at hpg
    by_cases h0 : p0 = pk
    · rw [if_pos h0] at hpg
      rcases List.mem_cons.mp hpg with h | h
      · right
        exact ⟨inner0, by rw [h], Or.inr ⟨(p0, inner0), List.mem_cons_self _ _, rfl⟩⟩
      · exact Or.inl (List.mem_cons_of_mem _ h)
    · rw [if_neg h0] at hpg
      rcases List.mem_cons.mp hpg with h | h
      · exact Or.inl (h ▸ List.mem_cons_self _ _)
      · rcases ih pg h with h1 | ⟨inner, h1, h2⟩
        · exact Or.inl (List.mem_cons_of_mem _ h1)
        · refine Or.inr ⟨inner, h1, ?_⟩
          rcases h2 with h2 | ⟨pg', hpg', h3⟩
          · exact Or.inl h2
          · exact Or.inr ⟨pg', List.mem_cons_of_mem _ hpg', h3⟩

/-- The grouping accumulation over `entries ++ [e]` is one bump of the
accumulation over `entries`. -/
theorem buildGrouped_append (entries : List TimeEntry) (e : TimeEntry) :
    buildGrouped (entries ++ [e]) =
      bumpOuter (buildGrouped entries) e.project_id (descOf e) e.duration := by
  simp [buildGrouped, List.foldl_append]

/-- Nested lookup in a bumped outer map. -/
theorem groupedVal_bumpOuter (g : List (Option Nat × List (String × Int)))
    (pk : Option Nat) (d : String) (v : Int) (pid : Option Nat) (d' : String) :
    groupedVal (bumpOuter g pk d v) pid d' =
      if pid = pk ∧ d' = d then some ((groupedVal g pid d').getD 0 + v)
      else groupedVal g pid d' := by
  have hbind : ∀ (o : Option (List (String × Int))) (dd : String),
      o.bind (fun inner => assocGet inner dd) = assocGet (o.getD []) dd := by
    intro o dd
    cases o <;> simp [assocGet]
  unfold groupedVal
  rw [bumpOuter_get]
  by_cases h0 : pid = pk
  · subst h0
    rw [if_pos rfl, Option.some_bind, bumpInner_get, hbind]
    by_cases h1 : d' = d
    · subst h1
      simp
    · simp [h1]
  · have : ¬ (pid = pk ∧ d' = d) := fun h => h0 h.1
    rw [if_neg h0, if_neg this]

/-- The grouping accumulation keeps the outer keys distinct and every
inner description map's keys distinct. -/
theorem buildGrouped_nodup (entries : List TimeEntry) :
    ((buildGrouped entries).map Prod.fst).Nodup ∧
      ∀ pg ∈ buildGrouped entries, (pg.2.map Prod.fst).Nodup := by
  induction entries using List.reverseRecOn with
  | nil => simp [buildGrouped]
  | append_singleton es e ih =>
    rw [buildGrouped_append]
    refine ⟨bumpOuter_nodup ih.1 _ _ _, ?_⟩
    intro pg hpg
    rcases bumpOuter_mem _ _ _ _ pg hpg with hold | ⟨inner, heq, hsrc⟩
    · exact ih.2 pg hold
    · rw [heq]
      rcases hsrc with hnil | ⟨pg', hpg', heq'⟩
      · subst hnil
        exact bumpInner_nodup (by simp) _ _
      · exact bumpInner_nodup (heq' ▸ ih.2 pg' hpg') _ _

/-- A raw group sum over entries none of which hit the group is zero. -/
theorem rawSum_eq_zero {entries : List TimeEntry} {pid : Option Nat}
    {d : String}
    (h : ¬ ∃ e ∈ entries, e.project_id = pid ∧ descOf e = d) :
    rawSum entries pid d = 0 := by
  unfold rawSum
  have hfil : entries.filter (fun e => e.project_id = pid ∧ descOf e = d) = [] := by
    rw [List.filter_eq_nil_iff]
    intro e he
    simp only [decide_eq_true_eq]
    exact fun habs => h ⟨e, he, habs⟩
  rw [hfil]
  simp

/-- The raw group sum over `entries ++ [e]`. -/
theorem rawSum_append (entries : List TimeEntry) (e : TimeEntry)
    (pid : Option Nat) (d : String) :
    rawSum (entries ++ [e]) pid d =
      rawSum entries pid d +
        (if e.project_id = pid ∧ descOf e = d then e.duration else 0) := by
  unfold rawSum
  rw [List.filter_append, List.map_append, List.sum_append]
  by_cases h : e.project_id = pid ∧ descOf e = d
  · simp [h]
  · simp [h]

/-- The central grouping invariant: the nested map holds a value for a
`(project_id, description)` key precisely when some entry hits that
group, and the value is the raw (unrounded) sum of the durations of
exactly those entries. -/
theorem buildGrouped_val (entries : List TimeEntry) (pid : Option Nat)
    (d : String) :
    groupedVal (buildGrouped entries) pid d =
      if ∃ e ∈ entries, e.project_id = pid ∧ descOf e = d then
        some (rawSum entries pid d)
      else none := by
  induction entries using List.reverseRecOn with
  | nil => simp [buildGrouped, groupedVal, assocGet]
  | append_singleton es e ih =>
    rw [buildGrouped_append, groupedVal_bumpOuter, ih, rawSum_append]
    by_cases hmatch : pid = e.project_id ∧ d = descOf e
    · obtain ⟨h1, h2⟩ := hmatch
      subst h1
      subst h2
      have hex : ∃ x ∈ es ++ [e],
          x.project_id = e.project_id ∧ descOf x = descOf e := ⟨e, by simp⟩
      rw [if_pos (⟨rfl, rfl⟩ : e.project_id = e.project_id ∧ descOf e = descOf e)]
      rw [if_pos hex]
      by_cases hold : ∃ x ∈ es, x.project_id = e.project_id ∧ descOf x = descOf e
      · rw [if_pos hold]
        simp
      · rw [if_neg hold, rawSum_eq_zero hold]
        simp
    · rw [if_neg hmatch]
      have hnot : ¬ (e.project_id = pid ∧ descOf e = d) := by
        intro ⟨h1, h2⟩
        exact hmatch ⟨h1.symm, h2.symm⟩
      have hiff : (∃ x ∈ es ++ [e], x.project_id = pid ∧ descOf x = d) ↔
          (∃ x ∈ es, x.project_id = pid ∧ descOf x = d) := by
        constructor
        · rintro ⟨x, hx, hxp⟩
          rcases List.mem_append.mp hx with hx | hx
          · exact ⟨x, hx, hxp⟩
          · rcases List.mem_singleton.mp hx with rfl
            exact absurd hxp hnot
        · rintro ⟨x, hx, hxp⟩
          exact ⟨x, List.mem_append_left _ hx, hxp⟩
      by_cases hold : ∃ x ∈ es, x.project_id = pid ∧ descOf x = d
      · rw [if_pos hold, if_pos (hiff.mpr hold)]
        simp [hnot]
      · rw [if_neg hold, if_neg (fun h => hold (hiff.mp h))]

/-- Membership in the grouping output, through the final sort. -/
theorem mem_group_entries {entries : List TimeEntry}
    {projects : List Project} {client_names : List (Nat × String)}
    {rounding : Option RoundingConfig} {P : GroupedProject} :
    P ∈ group_entries entries projects client_names rounding ↔
      ∃ pg ∈ buildGrouped entries,
        mkGroupedProject (project_info_map projects client_names) rounding
          pg = P := by
  unfold group_entries
  rw [(List.perm_insertionSort groupedProjectLe _).mem_iff]
  simp [List.mem_map]

/-- Claim C3: for any entry set, projects, client names and any
rounding configuration (including none), `group_entries` first sums raw
seconds per `(project, description)` group and only then rounds each
group's sum once (every displayed line equals the rounding of the raw
group sum), and every returned project's total equals the sum of its
displayed (already-rounded) line totals. -/
theorem group_entries_total_consistency (entries : List TimeEntry)
    (projects : List Project) (client_names : List (Nat × String))
    (rounding : Option RoundingConfig) :
    ∀ P ∈ group_entries entries projects client_names rounding,
      P.total_seconds = (P.entries.map (fun l => l.total_seconds)).sum ∧
      ∀ L ∈ P.entries, ∃ pid,
        (assocGet (project_info_map projects client_names) pid).getD
            ("Unknown Project", none) = (P.project_name, P.client_name) ∧
        L.total_seconds =
          applyRounding rounding (rawSum entries pid L.description) := by
  intro P hP
  obtain ⟨pg, hpg, rfl⟩ := mem_group_entries.mp hP
  constructor
  · show (((pg.2.map _).map _).sum : Int) = _
    exact (((List.perm_insertionSort groupedEntryGe _).map
      (fun l => l.total_seconds)).sum_eq).symm
  · intro L hL
    have hL' : L ∈ pg.2.map (fun dv =>
        GroupedEntry.mk dv.1 (applyRounding rounding dv.2)) :=
      ((List.perm_insertionSort groupedEntryGe _).mem_iff).mp hL
    obtain ⟨dv, hdv, rfl⟩ := List.mem_map.mp hL'
    refine ⟨pg.1, rfl, ?_⟩
    have hndinner := (buildGrouped_nodup entries).2 pg hpg
    have hget : assocGet pg.2 dv.1 = some dv.2 :=
      assocGet_of_mem_nodup hndinner hdv
    have houter : assocGet (buildGrouped entries) pg.1 = some pg.2 :=
      assocGet_of_mem_nodup (buildGrouped_nodup entries).1 hpg
    have hval : groupedVal (buildGrouped entries) pg.1 dv.1 = some dv.2 := by
      unfold groupedVal
      rw [houter, Option.some_bind, hget]
    rw [buildGrouped_val] at hval
    by_cases hex : ∃ x ∈ entries, x.project_id = pg.1 ∧ descOf x = dv.1
    · rw [if_pos hex] at hval
      injection hval with hval
      show applyRounding rounding dv.2 = _
      rw [← hval]
    · rw [if_neg hex] at hval
      cases hval

/-- Lookup of the synthetic `None` project bucket in the info map. -/
theorem project_info_get_none (projects : List Project)
    (client_names : List (Nat × String)) :
    assocGet (project_info_map projects client_names) none =
      some ("No Project", none) := by
  unfold project_info_map
  exact assocGet_insert_self _ _ _

/-- A project id matching no supplied project is absent from the info
map. -/
theorem project_info_get_unknown (projects : List Project)
    (client_names : List (Nat × String)) (p : Nat)
    (h : p ∉ projects.map Project.id) :
    assocGet (project_info_map projects client_names) (some p) = none := by
  unfold project_info_map
  rw [assocGet_insert_ne _ _ _ _ (by simp)]
  have haux : ∀ (ps : List Project)
      (m0 : List (Option Nat × (String × Option String))),
      p ∉ ps.map Project.id → assocGet m0 (some p) = none →
      assocGet (ps.foldl (projectInfoStep client_names) m0) (some p) = none := by
    intro ps
    induction ps with
    | nil =>
      intro m0 _ h0
      simpa using h0
    | cons pr rest ih =>
      intro m0 hmem h0
      rw [List.foldl_cons]
      have hne : (some p : Option Nat) ≠ some pr.id := by
        intro habs
        injection habs with habs
        exact hmem (by simp [habs])
      apply ih
      · intro habs
        exact hmem (by simpa using Or.inr habs)
      · show assocGet (projectInfoStep client_names m0 pr) (some p) = none
        unfold projectInfoStep
        rw [assocGet_insert_ne _ _ _ _ hne]
        exact h0
  exact haux projects [] h (by simp [assocGet])

/-- Every entry's `(project_id, description)` slot exists in the
grouping accumulation. -/
theorem buildGrouped_slot_of_mem {entries : List TimeEntry}
    {e : TimeEntry} (he : e ∈ entries) :
    ∃ pg ∈ buildGrouped entries,
      pg.1 = e.project_id ∧ descOf e ∈ pg.2.map Prod.fst := by
  have hex : ∃ x ∈ entries, x.project_id = e.project_id ∧ descOf x = descOf e :=
    ⟨e, he, rfl, rfl⟩
  have hval := buildGrouped_val entries e.project_id (descOf e)
  rw [if_pos hex] at hval
  unfold groupedVal at hval
  cases houter : assocGet (buildGrouped entries) e.project_id with
  | none =>
    rw [houter] at hval
    cases hval
  | some inner =>
    rw [houter, Option.some_bind] at hval
    refine ⟨(e.project_id, inner), assocGet_mem houter, rfl, ?_⟩
    exact List.mem_map_of_mem Prod.fst (assocGet_mem hval)

/-- The descriptions displayed for a grouping slot are exactly the
slot's description keys. -/
theorem mkGroupedProject_descriptions
    (info : List (Option Nat × (String × Option String)))
    (rounding : Option RoundingConfig)
    (pg : Option Nat × List (String × Int)) (d : String)
    (hd : d ∈ pg.2.map Prod.fst) :
    d ∈ (mkGroupedProject info rounding pg).entries.map
      GroupedEntry.description := by
  obtain ⟨dv, hdv, rfl⟩ := List.mem_map.mp hd
  show dv.1 ∈ (List.insertionSort _ _).map GroupedEntry.description
  rw [List.mem_map]
  refine ⟨GroupedEntry.mk dv.1 (applyRounding rounding dv.2), ?_, rfl⟩
  rw [(List.perm_insertionSort groupedEntryGe _).mem_iff]
  exact List.mem_map_of_mem _ hdv

/-- Claim C10: an entry whose `project_id` is present but matches no
supplied project lands in a bucket named "Unknown Project" with no
client name; an entry with no `project_id` lands in the synthetic
"No Project" bucket (also clientless). -/
theorem group_entries_project_buckets (entries : List TimeEntry)
    (projects : List Project) (client_names : List (Nat × String))
    (rounding : Option RoundingConfig) :
    ∀ e ∈ entries,
      (∀ p, e.project_id = some p → p ∉ projects.map Project.id →
        ∃ P ∈ group_entries entries projects client_names rounding,
          P.project_name = "Unknown Project" ∧ P.client_name = none ∧
            descOf e ∈ P.entries.map GroupedEntry.description) ∧
      (e.project_id = none →
        ∃ P ∈ group_entries entries projects client_names rounding,
          P.project_name = "No Project" ∧ P.client_name = none ∧
            descOf e ∈ P.entries.map GroupedEntry.description) := by
  intro e he
  obtain ⟨pg, hpg, hpid, hdesc⟩ := buildGrouped_slot_of_mem he
  constructor
  · intro p hp hunknown
    refine ⟨mkGroupedProject (project_info_map projects client_names)
      rounding pg, mem_group_entries.mpr ⟨pg, hpg, rfl⟩, ?_, ?_, ?_⟩
    · show ((assocGet _ pg.1).getD ("Unknown Project", none)).1 = _
      rw [hpid, hp, project_info_get_unknown projects client_names p hunknown]
      rfl
    · show ((assocGet _ pg.1).getD ("Unknown Project", none)).2 = _
      rw [hpid, hp, project_info_get_unknown projects client_names p hunknown]
      rfl
    · exact mkGroupedProject_descriptions _ _ _ _ hdesc
  · intro hp
    refine ⟨mkGroupedProject (project_info_map projects client_names)
      rounding pg, mem_group_entries.mpr ⟨pg, hpg, rfl⟩, ?_, ?_, ?_⟩
    · show ((assocGet _ pg.1).getD ("Unknown Project", none)).1 = _
      rw [hpid, hp, project_info_get_none projects client_names]
      rfl
    · show ((assocGet _ pg.1).getD ("Unknown Project", none)).2 = _
      rw [hpid, hp, project_info_get_none projects client_names]
      rfl
    · exact mkGroupedProject_descriptions _ _ _ _ hdesc

/-- Witness for claim C3: two 14-minute entries of one project and one
description, rounded at 15 minutes, yield one line of 1800 seconds (the
raw 1680-second sum rounded once) and a matching project total. -/
theorem group_entries_total_consistency_witness :
    ((GroupedProject.mk "Project A" none "Project A" 1800
        [GroupedEntry.mk "T" 1800]).total_seconds =
      ((GroupedProject.mk "Project A" none "Project A" 1800
          [GroupedEntry.mk "T" 1800]).entries.map
        (fun l => l.total_seconds)).sum) ∧
    ∃ pid,
      (assocGet (project_info_map [Project.mk 1 "Project A" none none] [])
          pid).getD ("Unknown Project", none) = ("Project A", none) ∧
      (GroupedEntry.mk "T" 1800).total_seconds =
        applyRounding (some (RoundingConfig.mk 15 .closest))
          (rawSum
            [TimeEntry.mk 1 (some "T") 840 "s1" (some "x") (some 1),
             TimeEntry.mk 2 (some "T") 840 "s2" (some "x") (some 1)]
            pid "T") := by
  have h := group_entries_total_consistency
    [TimeEntry.mk 1 (some "T") 840 "s1" (some "x") (some 1),
     TimeEntry.mk 2 (some "T") 840 "s2" (some "x") (some 1)]
    [Project.mk 1 "Project A" none none] []
    (some (RoundingConfig.mk 15 .closest))
    (GroupedProject.mk "Project A" none "Project A" 1800
      [GroupedEntry.mk "T" 1800])
    (by decide)
  exact ⟨h.1, h.2 (GroupedEntry.mk "T" 1800) (by decide)⟩

/-- Witness for claim C10: with one known project (id 1), an entry
referencing the unknown id 99 lands in "Unknown Project" and an entry
with no project id lands in "No Project", both clientless. -/
theorem group_entries_project_buckets_witness :
    (∃ P ∈ group_entries
        [TimeEntry.mk 1 (some "T") 60 "s1" (some "x") (some 99),
         TimeEntry.mk 2 none 60 "s2" (some "x") none]
        [Project.mk 1 "Project A" none none] [] none,
      P.project_name = "Unknown Project" ∧ P.client_name = none ∧
        descOf (TimeEntry.mk 1 (some "T") 60 "s1" (some "x") (some 99)) ∈
          P.entries.map GroupedEntry.description) ∧
    ∃ P ∈ group_entries
        [TimeEntry.mk 1 (some "T") 60 "s1" (some "x") (some 99),
         TimeEntry.mk 2 none 60 "s2" (some "x") none]
        [Project.mk 1 "Project A" none none] [] none,
      P.project_name = "No Project" ∧ P.client_name = none ∧
        descOf (TimeEntry.mk 2 none 60 "s2" (some "x") none) ∈
          P.entries.map GroupedEntry.description := by
  have h1 := group_entries_project_buckets
    [TimeEntry.mk 1 (some "T") 60 "s1" (some "x") (some 99),
     TimeEntry.mk 2 none 60 "s2" (some "x") none]
    [Project.mk 1 "Project A" none none] [] none
    (TimeEntry.mk 1 (some "T") 60 "s1" (some "x") (some 99)) (by decide)
  have h2 := group_entries_project_buckets
    [TimeEntry.mk 1 (some "T") 60 "s1" (some "x") (some 99),
     TimeEntry.mk 2 none 60 "s2" (some "x") none]
    [Project.mk 1 "Project A" none none] [] none
    (TimeEntry.mk 2 none 60 "s2" (some "x") none) (by decide)
  exact ⟨h1.1 99 rfl (by decide), h2.2 rfl⟩

/-! ### Rollup builder lemmas -/

/-- Closed form of the daily-totals loop: one entry per day number from
`start` to `end`, in order. -/
theorem build_daily_totals_eq (totals : Nat → Int) (s e : Nat) :
    build_daily_totals totals s e =
      (List.range (e + 1 - s)).map
        (fun i => DailyTotal.mk (s + i) (totals (s + i))) := by
  suffices h : ∀ n s, dailyTotalsLoop totals n s =
      (List.range n).map (fun i => DailyTotal.mk (s + i) (totals (s + i))) by
    exact h (e + 1 - s) s
  intro n
  induction n with
  | zero =>
    intro s
    simp [dailyTotalsLoop]
  | succ n ih =>
    intro s
    rw [dailyTotalsLoop, ih (s + 1), List.range_succ_eq_map]
    simp only [List.map_cons, List.map_map, Nat.add_zero]
    refine congrArg (List.cons _) ?_
    apply List.map_congr_left
    intro i _
    have h2 : s + 1 + i = s + (i + 1) := by omega
    simp [Function.comp, Nat.succ_eq_add_one, h2]

/-- The dates of the daily totals are strictly increasing. -/
theorem build_daily_totals_dates_pairwise (totals : Nat → Int) (s e : Nat) :
    ((build_daily_totals totals s e).map DailyTotal.date).Pairwise
      (· < ·) := by
  rw [build_daily_totals_eq, List.map_map]
  refine (List.pairwise_lt_range _).map _ ?_
  intro a b hab
  simpa using hab

/-- Claim C7: for every entry list and every span with `start ≤ end`,
`build_rollups` produces exactly `(end - start) + 1` daily entries, one
per calendar date of the span in order, and a date with no activity
(no entry parses to it) carries 0 seconds. -/
theorem build_rollups_daily_complete (env : Env) (entries : List TimeEntry)
    (startD endD : Nat) (rounding : Option RoundingConfig) (ws : WeekStart)
    (h : startD ≤ endD) :
    (build_rollups env entries startD endD rounding ws).daily.length =
        endD - startD + 1 ∧
    (∀ i (hi : i <
        (build_rollups env entries startD endD rounding ws).daily.length),
      ((build_rollups env entries startD endD rounding ws).daily.get
        ⟨i, hi⟩).date = startD + i) ∧
    (∀ dt ∈ (build_rollups env entries startD endD rounding ws).daily,
      (∀ e ∈ entries, env.parseDate e.start ≠ some dt.date) →
        dt.seconds = 0) := by
  have hdaily : (build_rollups env entries startD endD rounding ws).daily =
      build_daily_totals (rollupTotals env entries startD endD rounding)
        startD endD := rfl
  rw [hdaily, build_daily_totals_eq]
  refine ⟨by simp; omega, ?_, ?_⟩
  · intro i hi
    simp
  · intro dt hdt hnone
    obtain ⟨i, _, rfl⟩ := List.mem_map.mp hdt
    show rollupTotals env entries startD endD rounding (startD + i) = 0
    unfold rollupTotals
    have hfil : entries.filter (fun e =>
        env.parseDate e.start = some (startD + i) ∧
          startD ≤ startD + i ∧ startD + i ≤ endD) = [] := by
      rw [List.filter_eq_nil_iff]
      intro e he
      simp only [decide_eq_true_eq]
      intro habs
      exact hnone e he habs.1
    rw [hfil]
    simp

/-- Witness for claim C7: an empty entry list over a three-day span
yields exactly three daily entries. -/
theorem build_rollups_daily_complete_witness :
    (build_rollups (Env.mk (fun _ => none) (fun _ => none) (fun _ => "") "")
      [] 0 2 none .monday).daily.length = 2 - 0 + 1 :=
  (build_rollups_daily_complete
    (Env.mk (fun _ => none) (fun _ => none) (fun _ => "") "")
    [] 0 2 none .monday (by decide)).1

/-- Two-sided date filters degenerate to the upper bound when every
element clears the lower bound. -/
theorem filter_window_of_lower (l : List DailyTotal) (lo hi : Nat)
    (h : ∀ dt ∈ l, lo ≤ dt.date) :
    l.filter (fun dt => lo ≤ dt.date ∧ dt.date ≤ hi) =
      l.filter (fun dt => dt.date ≤ hi) := by
  apply List.filter_congr
  intro dt hdt
  simp [h dt hdt]

/-- A date filter over elements all beyond the upper bound is empty. -/
theorem filter_window_nil (l : List DailyTotal) (lo hi : Nat)
    (h : ∀ dt ∈ l, hi < dt.date) :
    l.filter (fun dt => lo ≤ dt.date ∧ dt.date ≤ hi) = [] := by
  rw [List.filter_eq_nil_iff]
  intro dt hdt
  have := h dt hdt
  simp only [decide_eq_true_eq]
  omega

/-- Invariant of the shared rollup loop with an open period: every
emitted period either extends the open one (same `start`, enlarged
`end`, seconds and day count grown by exactly the days up to its `end`)
or lies strictly beyond it and sums exactly the days inside its own
`[start, end]` window.  The day list is assumed strictly increasing and
entirely beyond the open period's `end`, which is how the loop is
invoked on the consecutive daily totals. -/
theorem rollupLoop_spec {κ : Type} [DecidableEq κ] (keyf : Nat → κ)
    (ds : List DailyTotal) :
    ∀ (k : κ) (r : PeriodRollup),
      (r.endDate :: ds.map DailyTotal.date).Pairwise (· < ·) →
      ∀ p ∈ rollupLoop keyf (some (k, r)) ds,
        (p.start = r.start ∧ r.endDate ≤ p.endDate ∧
         p.seconds = r.seconds +
           ((ds.filter (fun dt => dt.date ≤ p.endDate)).map
             (fun dt => dt.seconds)).sum ∧
         p.days = r.days +
           (ds.filter (fun dt => dt.date ≤ p.endDate)).length) ∨
        (r.endDate < p.start ∧ p.start ≤ p.endDate ∧
         p.seconds = ((ds.filter (fun dt =>
             p.start ≤ dt.date ∧ dt.date ≤ p.endDate)).map
           (fun dt => dt.seconds)).sum ∧
         p.days = (ds.filter (fun dt =>
             p.start ≤ dt.date ∧ dt.date ≤ p.endDate)).length) := by
  induction ds with
  | nil =>
    intro k r _ p hp
    rw [rollupLoop] at hp
    rcases List.mem_singleton.mp hp with rfl
    left
    refine ⟨rfl, le_refl _, ?_, ?_⟩ <;> simp [List.filter]
  | cons d rest ih =>
    intro k r hpw p hp
    have hrd : r.endDate < d.date := by
      have := (List.pairwise_cons.mp hpw).1
      exact this d.date (by simp)
    have hrrest : ∀ dt ∈ rest, r.endDate < dt.date := by
      intro dt hdt
      exact (List.pairwise_cons.mp hpw).1 dt.date
        (by simp [List.mem_map]; exact Or.inr ⟨dt, hdt, rfl⟩)
    have hpwtail : (d.date :: rest.map DailyTotal.date).Pairwise (· < ·) :=
      (List.pairwise_cons.mp hpw).2
    have hdrest : ∀ dt ∈ rest, d.date < dt.date := by
      intro dt hdt
      exact (List.pairwise_cons.mp hpwtail).1 dt.date
        (List.mem_map_of_mem _ hdt)
    rw [rollupLoop] at hp
    by_cases hk : k = keyf d.date
    · rw [if_pos hk] at hp
      rcases ih k (updateRollup r d)
          (by simpa [updateRollup] using hpwtail) p hp with
        ⟨h1, h2, h3, h4⟩ | ⟨h1, h2, h3, h4⟩
      · left
        have hdin : d.date ≤ p.endDate := le_trans (by simp [updateRollup]) h2
        refine ⟨h1, by omega, ?_, ?_⟩
        · rw [List.filter_cons, if_pos (by simpa using hdin)]
          simp only [List.map_cons, List.sum_cons]
          rw [h3]
          simp [updateRollup]
          ring
        · rw [List.filter_cons, if_pos (by simpa using hdin)]
          simp only [List.length_cons]
          rw [h4]
          simp [updateRollup]
          omega
      · right
        have hdp : d.date < p.start := by
          have : (updateRollup r d).endDate < p.start := h1
          simpa [updateRollup] using this
        refine ⟨by omega, h2, ?_, ?_⟩
        · rw [List.filter_cons, if_neg (by simp; omega)]
          exact h3
        · rw [List.filter_cons, if_neg (by simp; omega)]
          exact h4
    · rw [if_neg hk] at hp
      rcases List.mem_cons.mp hp with rfl | hp'
      · left
        have hnil : rest.filter (fun dt => dt.date ≤ p.endDate) = [] := by
          rw [List.filter_eq_nil_iff]
          intro dt hdt
          have := hrrest dt hdt
          simp only [decide_eq_true_eq]
          omega
        have hnil2 : ¬ (d.date ≤ p.endDate) := by omega
        refine ⟨rfl, le_refl _, ?_, ?_⟩
        · rw [List.filter_cons, if_neg (by simpa using hnil2), hnil]
          simp
        · rw [List.filter_cons, if_neg (by simpa using hnil2), hnil]
          simp
      · rcases ih (keyf d.date) (updateRollup (initRollup d) d)
            (by simpa [updateRollup, initRollup] using hpwtail) p hp' with
          ⟨h1, h2, h3, h4⟩ | ⟨h1, h2, h3, h4⟩
        · right
          have hstart : p.start = d.date := by
            simpa [updateRollup, initRollup] using h1
          have hdin : d.date ≤ p.endDate := by
            have : (updateRollup (initRollup d) d).endDate ≤ p.endDate := h2
            simpa [updateRollup, initRollup] using this
          have hlower : rest.filter (fun dt =>
              p.start ≤ dt.date ∧ dt.date ≤ p.endDate) =
              rest.filter (fun dt => dt.date ≤ p.endDate) := by
            apply filter_window_of_lower
            intro dt hdt
            have := hdrest dt hdt
            omega
          refine ⟨by omega, by omega, ?_, ?_⟩
          · rw [List.filter_cons, if_pos (by simp; omega), hlower]
            simp only [List.map_cons, List.sum_cons]
            rw [h3]
            simp [updateRollup, initRollup]
          · rw [List.filter_cons, if_pos (by simp; omega), hlower]
            simp only [List.length_cons]
            rw [h4]
            simp only [updateRollup, initRollup]
            omega
        · right
          have hdp : d.date < p.start := by
            have : (updateRollup (initRollup d) d).endDate < p.start := h1
            simpa [updateRollup, initRollup] using this
          refine ⟨by omega, h2, ?_, ?_⟩
          · rw [List.filter_cons, if_neg (by simp; omega)]
            exact h3
          · rw [List.filter_cons, if_neg (by simp; omega)]
            exact h4

/-- Specialisation of the loop invariant to a loop started with no open
period: every emitted period sums and counts exactly the days whose
dates fall inside its `[start, end]` window. -/
theorem rollupLoop_none_spec {κ : Type} [DecidableEq κ] (keyf : Nat → κ)
    (ds : List DailyTotal)
    (hpw : (ds.map DailyTotal.date).Pairwise (· < ·)) :
    ∀ p ∈ rollupLoop keyf none ds,
      p.seconds = ((ds.filter (fun dt =>
          p.start ≤ dt.date ∧ dt.date ≤ p.endDate)).map
        (fun dt => dt.seconds)).sum ∧
      p.days = (ds.filter (fun dt =>
          p.start ≤ dt.date ∧ dt.date ≤ p.endDate)).length := by
  cases ds with
  | nil =>
    intro p hp
    rw [rollupLoop] at hp
    simp at hp
  | cons d rest =>
    intro p hp
    rw [rollupLoop] at hp
    have hpwtail : ((updateRollup (initRollup d) d).endDate ::
        rest.map DailyTotal.date).Pairwise (· < ·) := by
      simpa [updateRollup, initRollup] using hpw
    have hdrest : ∀ dt ∈ rest, d.date < dt.date := by
      intro dt hdt
      exact (List.pairwise_cons.mp hpw).1 dt.date (List.mem_map_of_mem _ hdt)
    rcases rollupLoop_spec keyf rest (keyf d.date)
        (updateRollup (initRollup d) d) hpwtail p hp with
      ⟨h1, h2, h3, h4⟩ | ⟨h1, h2, h3, h4⟩
    · have hstart : p.start = d.date := by
        simpa [updateRollup, initRollup] using h1
      have hdin : d.date ≤ p.endDate := by
        have : (updateRollup (initRollup d) d).endDate ≤ p.endDate := h2
        simpa [updateRollup, initRollup] using this
      have hlower : rest.filter (fun dt =>
          p.start ≤ dt.date ∧ dt.date ≤ p.endDate) =
          rest.filter (fun dt => dt.date ≤ p.endDate) := by
        apply filter_window_of_lower
        intro dt hdt
        have := hdrest dt hdt
        omega
      constructor
      · rw [List.filter_cons, if_pos (by simp; omega), hlower]
        simp only [List.map_cons, List.sum_cons]
        rw [h3]
        simp [updateRollup, initRollup]
      · rw [List.filter_cons, if_pos (by simp; omega), hlower]
        simp only [List.length_cons]
        rw [h4]
        simp only [updateRollup, initRollup]
        omega
    · have hdp : d.date < p.start := by
        have : (updateRollup (initRollup d) d).endDate < p.start := h1
        simpa [updateRollup, initRollup] using this
      constructor
      · rw [List.filter_cons, if_neg (by simp; omega)]
        exact h3
      · rw [List.filter_cons, if_neg (by simp; omega)]
        exact h4

/-- Claim C8: for every weekly, monthly and yearly period produced by
`build_rollups`, the period's `seconds` equals the sum of the daily
totals whose dates lie in `[period.start, period.end]`, and its `days`
equals the count of those calendar dates (the daily list holds exactly
one total per date of the span). -/
theorem build_rollups_period_sums (env : Env) (entries : List TimeEntry)
    (startD endD : Nat) (rounding : Option RoundingConfig) (ws : WeekStart) :
    ∀ p ∈ (build_rollups env entries startD endD rounding ws).weekly ++
        (build_rollups env entries startD endD rounding ws).monthly ++
        (build_rollups env entries startD endD rounding ws).yearly,
      p.seconds = (((build_rollups env entries startD endD rounding
          ws).daily.filter (fun dt =>
            p.start ≤ dt.date ∧ dt.date ≤ p.endDate)).map
        (fun dt => dt.seconds)).sum ∧
      p.days = ((build_rollups env entries startD endD rounding
          ws).daily.filter (fun dt =>
            p.start ≤ dt.date ∧ dt.date ≤ p.endDate)).length := by
  intro p hp
  have hpw := build_daily_totals_dates_pairwise
    (rollupTotals env entries startD endD rounding) startD endD
  have hdaily : (build_rollups env entries startD endD rounding ws).daily =
      build_daily_totals (rollupTotals env entries startD endD rounding)
        startD endD := rfl
  rw [hdaily]
  rcases List.mem_append.mp hp with hp' | hp'
  · rcases List.mem_append.mp hp' with hw | hm
    · exact rollupLoop_none_spec _ _ hpw p hw
    · exact rollupLoop_none_spec _ _ hpw p hm
  · exact rollupLoop_none_spec _ _ hpw p hp'

/-- Witness for claim C8 on the three-day span `0..2` with no entries:
the second weekly period covers days 1 and 2 with 0 seconds. -/
theorem build_rollups_period_sums_witness :
    (PeriodRollup.mk 1 2 2 0).seconds =
      (((build_rollups (Env.mk (fun _ => none) (fun _ => none)
            (fun _ => "") "") [] 0 2 none .monday).daily.filter
          (fun dt => (PeriodRollup.mk 1 2 2 0).start ≤ dt.date ∧
            dt.date ≤ (PeriodRollup.mk 1 2 2 0).endDate)).map
        (fun dt => dt.seconds)).sum ∧
    (PeriodRollup.mk 1 2 2 0).days =
      ((build_rollups (Env.mk (fun _ => none) (fun _ => none)
            (fun _ => "") "") [] 0 2 none .monday).daily.filter
          (fun dt => (PeriodRollup.mk 1 2 2 0).start ≤ dt.date ∧
            dt.date ≤ (PeriodRollup.mk 1 2 2 0).endDate)).length :=
  build_rollups_period_sums
    (Env.mk (fun _ => none) (fun _ => none) (fun _ => "") "")
    [] 0 2 none .monday (PeriodRollup.mk 1 2 2 0) (by decide)

/-! ### Range-merge lookup lemmas -/

/-- Head unfolding of the lexicographic character comparison. -/
theorem charsLtb_cons (x y : Char) (xs ys : List Char) :
    charsLtb (x :: xs) (y :: ys) = true ↔
      x < y ∨ (x = y ∧ charsLtb xs ys = true) := by
  rw [charsLtb]
  by_cases h1 : x < y
  · simp [h1]
  · rw [if_neg h1]
    by_cases h2 : y < x
    · have hne : x ≠ y := by
        intro habs
        exact lt_irrefl x (habs ▸ h2)
      simp [h2, h1, hne]
    · have heq : x = y := le_antisymm (not_lt.mp h2) (not_lt.mp h1)
      simp [h2, h1, heq]

/-- The lexicographic comparison is transitive. -/
theorem charsLtb_trans :
    ∀ {a b c : List Char}, charsLtb a b = true → charsLtb b c = true →
      charsLtb a c = true
  | [], [], _ :: _, _, _ => rfl
  | [], _ :: _, _ :: _, _, _ => rfl
  | x :: xs, y :: ys, z :: zs, hab, hbc => by
    rcases (charsLtb_cons x y xs ys).mp hab with h1 | ⟨h1, h1'⟩ <;>
      rcases (charsLtb_cons y z ys zs).mp hbc with h2 | ⟨h2, h2'⟩
    · exact (charsLtb_cons x z xs zs).mpr (Or.inl (lt_trans h1 h2))
    · exact (charsLtb_cons x z xs zs).mpr (Or.inl (h2 ▸ h1))
    · exact (charsLtb_cons x z xs zs).mpr (Or.inl (h1 ▸ h2))
    · exact (charsLtb_cons x z xs zs).mpr
        (Or.inr ⟨h1.trans h2, charsLtb_trans h1' h2'⟩)

/-- Two character lists compare: one is smaller or they are equal. -/
theorem charsLtb_total :
    ∀ (a b : List Char), charsLtb a b = true ∨ charsLtb b a = true ∨ a = b
  | [], [] => Or.inr (Or.inr rfl)
  | [], _ :: _ => Or.inl rfl
  | _ :: _, [] => Or.inr (Or.inl rfl)
  | x :: xs, y :: ys => by
    rcases lt_trichotomy x y with h | h | h
    · exact Or.inl ((charsLtb_cons x y xs ys).mpr (Or.inl h))
    · rcases charsLtb_total xs ys with h' | h' | h'
      · exact Or.inl ((charsLtb_cons x y xs ys).mpr (Or.inr ⟨h, h'⟩))
      · exact Or.inr (Or.inl ((charsLtb_cons y x ys xs).mpr
          (Or.inr ⟨h.symm, h'⟩)))
      · exact Or.inr (Or.inr (by rw [h, h']))
    · exact Or.inr (Or.inl ((charsLtb_cons y x ys xs).mpr (Or.inl h)))

/-- The entry comparator is total. -/
theorem entryLe_total : ∀ a b : TimeEntry, entryLe a b ∨ entryLe b a := by
  intro a b
  rcases charsLtb_total a.start.data b.start.data with h | h | h
  · exact Or.inl (Or.inl h)
  · exact Or.inr (Or.inl h)
  · have heq : a.start = b.start := by
      cases hb : b.start with
      | mk db =>
        cases ha : a.start with
        | mk da =>
          rw [ha, hb] at h
          simp only at h
          rw [h]
    rcases le_total a.id b.id with hid | hid
    · exact Or.inl (Or.inr ⟨heq, hid⟩)
    · exact Or.inr (Or.inr ⟨heq.symm, hid⟩)

/-- The entry comparator is transitive. -/
theorem entryLe_trans : ∀ a b c : TimeEntry,
    entryLe a b → entryLe b c → entryLe a c := by
  intro a b c hab hbc
  rcases hab with h1 | ⟨h1, h1'⟩ <;> rcases hbc with h2 | ⟨h2, h2'⟩
  · exact Or.inl (charsLtb_trans h1 h2)
  · exact Or.inl (by rw [strLtb] at h1 ⊢; rw [← h2]; exact h1)
  · exact Or.inl (by rw [strLtb] at h2 ⊢; rw [h1]; exact h2)
  · exact Or.inr ⟨h1.trans h2, h1'.trans h2'⟩

/-- Membership after an insert-or-replace, under distinct keys. -/
theorem assocInsert_mem_iff {κ β : Type} [DecidableEq κ]
    {m : List (κ × β)} (hnd : (m.map Prod.fst).Nodup) (k : κ) (v : β)
    (kv : κ × β) :
    kv ∈ assocInsert m k v ↔ kv = (k, v) ∨ (kv ∈ m ∧ kv.1 ≠ k) := by
  induction m with
  | nil =>
    simp only [assocInsert, List.mem_singleton, List.not_mem_nil,
      false_and, or_false]
  | cons kv0 rest ih =>
    rw [List.map_cons, List.nodup_cons] at hnd
    rw [assocInsert]
    by_cases h0 : kv0.1 = k
    · rw [if_pos h0]
      constructor
      · intro h
        rcases List.mem_cons.mp h with rfl | h
        · exact Or.inl (by rw [h0])
        · refine Or.inr ⟨List.mem_cons_of_mem _ h, ?_⟩
          intro habs
          exact hnd.1 (h0 ▸ habs ▸ List.mem_map_of_mem Prod.fst h)
      · intro h
        rcases h with rfl | ⟨hmem, hne⟩
        · rw [← h0]
          exact List.mem_cons_self _ _
        · rcases List.mem_cons.mp hmem with rfl | hmem
          · exact absurd h0 hne
          · exact List.mem_cons_of_mem _ hmem
    · rw [if_neg h0]
      constructor
      · intro h
        rcases List.mem_cons.mp h with rfl | h
        · exact Or.inr ⟨List.mem_cons_self _ _, h0⟩
        · rcases (ih hnd.2).mp h with h | ⟨hmem, hne⟩
          · exact Or.inl h
          · exact Or.inr ⟨List.mem_cons_of_mem _ hmem, hne⟩
      · intro h
        rcases h with rfl | ⟨hmem, hne⟩
        · exact List.mem_cons_of_mem _ ((ih hnd.2).mpr (Or.inl rfl))
        · rcases List.mem_cons.mp hmem with rfl | hmem
          · exact List.mem_cons_self _ _
          · exact List.mem_cons_of_mem _ ((ih hnd.2).mpr (Or.inr ⟨hmem, hne⟩))

/-- Appending one candidate shifts the last-write-wins predicate. -/
theorem lastWriteWins_append (cands : List TimeEntry) (c x : TimeEntry) :
    lastWriteWins (cands ++ [c]) x ↔
      x = c ∨ (lastWriteWins cands x ∧ x.id ≠ c.id) := by
  constructor
  · rintro ⟨l1, l2, heq, hl2⟩
    rcases List.eq_nil_or_concat l2 with rfl | ⟨l2', a, rfl⟩
    · left
      have h2 := List.append_inj' heq (by simp)
      injection h2.2 with h
      exact h.symm
    · rw [List.concat_eq_append] at heq
      have heq' : (l1 ++ x :: l2') ++ [a] = cands ++ [c] := by
        rw [List.append_assoc, List.cons_append]
        exact heq.symm
      have h2 := List.append_inj' heq' rfl
      injection h2.2 with ha
      right
      subst ha
      refine ⟨⟨l1, l2', h2.1.symm, ?_⟩, ?_⟩
      · intro y hy
        exact hl2 y (by simp [hy])
      · exact (hl2 a (by simp)).symm
  · rintro (rfl | ⟨⟨l1, l2, rfl, hl2⟩, hne⟩)
    · exact ⟨cands, [], rfl, by simp⟩
    · refine ⟨l1, l2 ++ [c], by simp, ?_⟩
      intro y hy
      rcases List.mem_append.mp hy with hy | hy
      · exact hl2 y hy
      · rcases List.mem_singleton.mp hy with rfl
        exact fun habs => hne habs.symm

/-- The id-keyed deduplication map built by folding `insertById` over
the candidate stream: keys are distinct, each value is keyed by its own
id, and the values are exactly the last-write-wins survivors. -/
theorem insertFold_spec (cands : List TimeEntry) :
    ((cands.foldl insertById []).map Prod.fst).Nodup ∧
    (∀ kv ∈ cands.foldl insertById [], kv.2.id = kv.1) ∧
    (∀ x, x ∈ (cands.foldl insertById []).map Prod.snd ↔
      lastWriteWins cands x) := by
  induction cands using List.reverseRecOn with
  | nil =>
    refine ⟨by simp, by simp, ?_⟩
    intro x
    simp only [List.foldl_nil, List.map_nil, List.not_mem_nil, false_iff]
    rintro ⟨l1, l2, heq, _⟩
    exact List.not_mem_nil x (heq ▸ List.mem_append_right l1 (List.mem_cons_self _ _))
  | append_singleton cs c ih =>
    obtain ⟨hnd, hid, hmem⟩ := ih
    rw [List.foldl_append, List.foldl_cons, List.foldl_nil]
    have hins : insertById (cs.foldl insertById []) c =
        assocInsert (cs.foldl insertById []) c.id c := rfl
    rw [hins]
    refine ⟨assocInsert_nodup hnd _ _, ?_, ?_⟩
    · intro kv hkv
      rcases (assocInsert_mem_iff hnd c.id c kv).mp hkv with rfl | ⟨hmem', _⟩
      · rfl
      · exact hid kv hmem'
    · intro x
      rw [lastWriteWins_append]
      constructor
      · intro hx
        obtain ⟨kv, hkv, rfl⟩ := List.mem_map.mp hx
        rcases (assocInsert_mem_iff hnd c.id c kv).mp hkv with rfl | ⟨hmem', hne⟩
        · exact Or.inl rfl
        · refine Or.inr ⟨(hmem _).mp (List.mem_map_of_mem Prod.snd hmem'), ?_⟩
          rw [hid kv hmem']
          exact hne
      · rintro (rfl | ⟨hlw, hne⟩)
        · exact List.mem_map.mpr ⟨(x.id, x),
            (assocInsert_mem_iff hnd x.id x _).mpr (Or.inl rfl), rfl⟩
        · obtain ⟨kv, hkv, rfl⟩ := List.mem_map.mp ((hmem _).mpr hlw)
          refine List.mem_map.mpr ⟨kv,
            (assocInsert_mem_iff hnd c.id c kv).mpr (Or.inr ⟨hkv, ?_⟩), rfl⟩
          rw [← hid kv hkv]
          exact hne

/-- An insert-or-replace never produces the empty map. -/
theorem assocInsert_ne_nil {κ β : Type} [DecidableEq κ]
    (m : List (κ × β)) (k : κ) (v : β) : assocInsert m k v ≠ [] := by
  cases m with
  | nil => simp [assocInsert]
  | cons kv rest =>
    rw [assocInsert]
    split <;> simp

/-- The deduplication map is empty only for an empty candidate
stream. -/
theorem insertFold_eq_nil_iff (cands : List TimeEntry) :
    cands.foldl insertById [] = [] ↔ cands = [] := by
  induction cands using List.reverseRecOn with
  | nil => simp
  | append_singleton cs c _ =>
    rw [List.foldl_append, List.foldl_cons, List.foldl_nil]
    constructor
    · intro h
      exact absurd h (assocInsert_ne_nil _ _ _)
    · intro h
      simp at h

/-- The per-range inner fold of the scan inserts exactly the
date-filtered entries, in order. -/
theorem rangeStep_inner_fold (env : Env) (sd ed : Nat)
    (data : List TimeEntry) :
    ∀ m : List (Nat × TimeEntry),
      data.foldl (fun m e =>
        match env.parseDate e.start with
        | none => m
        | some d => if sd ≤ d ∧ d ≤ ed then insertById m e else m) m =
      (data.filter (entryInWindow env sd ed)).foldl insertById m := by
  induction data with
  | nil => intro m; rfl
  | cons e data ih =>
    intro m
    rw [List.foldl_cons, List.filter_cons]
    cases hparse : env.parseDate e.start with
    | none =>
      have hw : entryInWindow env sd ed e = false := by
        unfold entryInWindow
        rw [hparse]
      rw [hw]
      simpa [hparse] using ih m
    | some d =>
      by_cases hin : sd ≤ d ∧ d ≤ ed
      · have hw : entryInWindow env sd ed e = true := by
          unfold entryInWindow
          rw [hparse]
          simpa using hin
        rw [hw]
        simpa [hparse, hin] using ih (insertById m e)
      · have hw : entryInWindow env sd ed e = false := by
          unfold entryInWindow
          rw [hparse]
          simpa using hin
        rw [hw]
        simpa [hparse, hin] using ih m

/-- The range-merge scan, characterised: its `entries_by_id` map is the
`insertById` fold over the candidate stream, its best parsed timestamp
is the maximum over the intersecting ranges, and its raw fallback is
the last unparseable `fetched_at` among them. -/
theorem rangeScan_spec (env : Env) (workspace_id sd ed : Nat)
    (tes : List (String × CachedData (List TimeEntry))) :
    tes.foldl (rangeScanStep env workspace_id sd ed)
        (RangeScanAcc.mk [] none none) =
      RangeScanAcc.mk
        (((tes.filter (rangeIntersects env workspace_id sd ed)).flatMap
            (fun kv => kv.2.data.filter (entryInWindow env sd ed))).foldl
          insertById [])
        (latestParsedTime env
          (tes.filter (rangeIntersects env workspace_id sd ed)))
        (lastRawTimestamp env
          (tes.filter (rangeIntersects env workspace_id sd ed))) := by
  induction tes using List.reverseRecOn with
  | nil => rfl
  | append_singleton ts kv ih =>
    rw [List.foldl_append, List.foldl_cons, List.foldl_nil, ih,
      List.filter_append]
    by_cases hint : rangeIntersects env workspace_id sd ed kv = true
    · have hfil : List.filter (rangeIntersects env workspace_id sd ed) [kv]
          = [kv] := by
        simp [hint]
      rw [hfil]
      obtain ⟨b, hparse, hcond⟩ :
          ∃ b, parse_cache_key_bounds env kv.1 = some b ∧
            (b.1 = workspace_id ∧ ¬ (b.2.2 < sd) ∧ ¬ (b.2.1 > ed)) := by
        unfold rangeIntersects at hint
        cases hp : parse_cache_key_bounds env kv.1 with
        | none => rw [hp] at hint; cases hint
        | some b =>
          rw [hp] at hint
          exact ⟨b, rfl, by simpa using hint⟩
      obtain ⟨cw, cs, ce⟩ := b
      unfold rangeScanStep
      rw [hparse]
      dsimp only
      have hskip : ¬ (cw ≠ workspace_id ∨ ce < sd ∨ cs > ed) := by
        obtain ⟨h1, h2, h3⟩ := hcond
        simp at h1 h2 h3 ⊢
        exact ⟨h1, h2, h3⟩
      rw [if_neg hskip]
      rw [rangeStep_inner_fold]
      rw [List.flatMap_append]
      rw [List.foldl_append]
      have hflat : List.flatMap [kv]
          (fun r => r.2.data.filter (entryInWindow env sd ed)) =
          kv.2.data.filter (entryInWindow env sd ed) := by
        simp
      rw [hflat]
      cases htime : env.parseTime kv.2.fetched_at with
      | some t =>
        have hlatest : latestParsedTime env
            (ts.filter (rangeIntersects env workspace_id sd ed) ++ [kv]) =
            optMax (latestParsedTime env
              (ts.filter (rangeIntersects env workspace_id sd ed))) t := by
          unfold latestParsedTime
          rw [List.foldl_append, List.foldl_cons, List.foldl_nil, htime]
        have hraw : lastRawTimestamp env
            (ts.filter (rangeIntersects env workspace_id sd ed) ++ [kv]) =
            lastRawTimestamp env
              (ts.filter (rangeIntersects env workspace_id sd ed)) := by
          unfold lastRawTimestamp
          rw [List.filter_append]
          have : List.filter
              (fun kv => decide (env.parseTime kv.2.fetched_at = none))
              [kv] = [] := by
            simp [htime]
          rw [this, List.append_nil]
        rw [hlatest, hraw]
        cases hcur : latestParsedTime env
            (ts.filter (rangeIntersects env workspace_id sd ed)) with
        | none => rfl
        | some cur =>
          by_cases hle : t ≤ cur
          · simp only [hle, if_pos]
            unfold optMax
            dsimp only
            have hm : max cur t = cur := by omega
            rw [hm]
          · simp only [hle, if_neg, if_false]
            unfold optMax
            dsimp only
            have hm : max cur t = t := by omega
            rw [hm]
      | none =>
        have hlatest : latestParsedTime env
            (ts.filter (rangeIntersects env workspace_id sd ed) ++ [kv]) =
            latestParsedTime env
              (ts.filter (rangeIntersects env workspace_id sd ed)) := by
          unfold latestParsedTime
          rw [List.foldl_append, List.foldl_cons, List.foldl_nil, htime]
        have hraw : lastRawTimestamp env
            (ts.filter (rangeIntersects env workspace_id sd ed) ++ [kv]) =
            some kv.2.fetched_at := by
          unfold lastRawTimestamp
          rw [List.filter_append]
          have : List.filter
              (fun kv => decide (env.parseTime kv.2.fetched_at = none))
              [kv] = [kv] := by
            simp [htime]
          rw [this, List.map_append]
          exact List.getLast?_concat _
        rw [hlatest, hraw]
    · have hfil : List.filter (rangeIntersects env workspace_id sd ed) [kv]
          = [] := by
        simp [hint]
      rw [hfil, List.append_nil]
      unfold rangeScanStep
      cases hp : parse_cache_key_bounds env kv.1 with
      | none => rfl
      | some b =>
        obtain ⟨cw, cs, ce⟩ := b
        dsimp only
        have hskip : cw ≠ workspace_id ∨ ce < sd ∨ cs > ed := by
          unfold rangeIntersects at hint
          rw [hp] at hint
          have hna : cw = workspace_id → sd ≤ ce → ed < cs := by
            simpa using hint
          omega
        rw [if_pos hskip]

/-- Claim C2: for a time-entry query `[start, end]` not stored under a
verbatim cache key, the range-merge lookup scans all stored ranges,
keeps those intersecting the query, filters each cached entry to those
whose own date falls inside the query, deduplicates by entry id with
last-write-wins across overlapping ranges (later-scanned ranges win),
returns the union sorted by start time then id, and synthesizes a fetch
timestamp equal to the most recent of the contributing (intersecting)
ranges' timestamps, falling back to the last non-parseable raw string
if none parses, then to "now" only if nothing is available; the lookup
returns nothing exactly when no candidate entry exists. -/
theorem cached_time_entries_for_range_merge (env : Env) (cache : CacheFile)
    (workspace_id sd ed : Nat) (s e : String)
    (hmiss : cached_time_entries cache workspace_id s e = none)
    (hs : env.parseDate s = some sd) (he : env.parseDate e = some ed) :
    (cached_time_entries_for_range env cache workspace_id s e = none ↔
      mergeCandidates env cache workspace_id sd ed = []) ∧
    ∀ data ts, cached_time_entries_for_range env cache workspace_id s e =
        some (CachedData.mk data ts) →
      List.Sorted entryLe data ∧
      (data.map (fun x => x.id)).Nodup ∧
      (∀ x, x ∈ data ↔
        lastWriteWins (mergeCandidates env cache workspace_id sd ed) x) ∧
      ts = (((latestParsedTime env
          (intersectingRanges env cache workspace_id sd ed)).map
            env.toRfc).orElse
        (fun _ => lastRawTimestamp env
          (intersectingRanges env cache workspace_id sd ed))).getD env.now := by
  have hcands : mergeCandidates env cache workspace_id sd ed =
      (cache.time_entries.filter
        (rangeIntersects env workspace_id sd ed)).flatMap
        (fun kv => kv.2.data.filter (entryInWindow env sd ed)) := rfl
  have hinters : intersectingRanges env cache workspace_id sd ed =
      cache.time_entries.filter (rangeIntersects env workspace_id sd ed) := rfl
  unfold cached_time_entries_for_range
  rw [hmiss, hs, he]
  dsimp only
  rw [rangeScan_spec]
  dsimp only
  rw [hcands, hinters]
  set cands := (cache.time_entries.filter
    (rangeIntersects env workspace_id sd ed)).flatMap
    (fun kv => kv.2.data.filter (entryInWindow env sd ed)) with hcdef
  obtain ⟨hnd, hid, hmem⟩ := insertFold_spec cands
  constructor
  · by_cases hc : cands = []
    · rw [hc]
      simp [insertById]
    · have hne : cands.foldl insertById [] ≠ [] :=
        fun h => hc ((insertFold_eq_nil_iff cands).mp h)
      rw [if_neg hne]
      simp [hc]
  · intro data ts hsome
    by_cases hnil : cands.foldl insertById [] = []
    · rw [if_pos hnil] at hsome
      cases hsome
    · rw [if_neg hnil] at hsome
      rw [Option.some_inj, CachedData.mk.injEq] at hsome
      obtain ⟨hdata, hts⟩ := hsome
      haveI : IsTotal TimeEntry entryLe := ⟨entryLe_total⟩
      haveI : IsTrans TimeEntry entryLe := ⟨entryLe_trans⟩
      refine ⟨?_, ?_, ?_, hts.symm⟩
      · rw [← hdata]
        exact List.sorted_insertionSort entryLe _
      · rw [← hdata]
        have hperm : ((cands.foldl insertById []).map
            Prod.snd).insertionSort entryLe |>.map (fun x => x.id) |>.Perm
            (((cands.foldl insertById []).map Prod.snd).map
              (fun x => x.id)) :=
          (List.perm_insertionSort entryLe _).map _
        rw [hperm.nodup_iff]
        have hkeys : ((cands.foldl insertById []).map Prod.snd).map
            (fun x => x.id) = (cands.foldl insertById []).map Prod.fst := by
          rw [List.map_map]
          apply List.map_congr_left
          intro kv hkv
          exact hid kv hkv
        rw [hkeys]
        exact hnd
      · intro x
        rw [← hdata, (List.perm_insertionSort entryLe _).mem_iff]
        exact hmem x

/-- Witness for claim C2: querying days 10–12 of workspace 7 against
two overlapping cached ranges merges their in-window entries, resolves
the duplicate id 1 to the later-scanned range's version, returns them
sorted, and synthesizes the fetch timestamp from the most recent
contributing range. -/
theorem cached_time_entries_for_range_merge_witness :
    List.Sorted entryLe [witnessE1b, witnessE2] ∧
    (([witnessE1b, witnessE2].map (fun x => x.id)).Nodup) ∧
    (witnessE1b ∈ [witnessE1b, witnessE2] ↔
      lastWriteWins (mergeCandidates witnessEnv witnessCache 7 10 12)
        witnessE1b) ∧
    "R9" = (((latestParsedTime witnessEnv
        (intersectingRanges witnessEnv witnessCache 7 10 12)).map
          witnessEnv.toRfc).orElse
      (fun _ => lastRawTimestamp witnessEnv
        (intersectingRanges witnessEnv witnessCache 7 10 12))).getD
      witnessEnv.now := by
  have h := (cached_time_entries_for_range_merge witnessEnv witnessCache
    7 10 12 "S" "E" (by decide) (by decide) (by decide)).2
    [witnessE1b, witnessE2] "R9" (by decide)
  exact ⟨h.1, h.2.1, ⟨fun _ => (h.2.2.1 witnessE1b).mp (by decide),
    fun _ => by decide⟩, h.2.2.2⟩

/-! ### Refresh orchestrator: resolution policy -/

/-- Counterexample to claim C1 as stated: with workspaces cached,
`allow_api = true` and the quota untouched, `resolve_workspaces` does
NOT call the Remote Data Source — it returns the cached list (here
`[W1]`, not the fresh `[W2]` the remote would deliver) and consults the
cache first, not as a fallback.  The same shape holds for
`resolve_projects`. -/
theorem resolve_workspaces_api_first_counterexample :
    (resolve_workspaces witnessEnv witnessStCachedW true none
      (Except.ok [Workspace.mk 2 "W2"])).apiCalled = false ∧
    (resolve_workspaces witnessEnv witnessStCachedW true none
      (Except.ok [Workspace.mk 2 "W2"])).result =
        some [Workspace.mk 1 "W1"] ∧
    quota_remaining witnessStCachedW ≠ 0 ∧
    some [Workspace.mk 1 "W1"] ≠ some [Workspace.mk 2 "W2"] := by
  refine ⟨rfl, rfl, by decide, by decide⟩

/-- Claim C1 (amended): the time-entries resource follows the stated
rule — with `allow_api` and quota available the Remote Data Source is
called (one quota unit consumed), a success is written through to the
cache and returned fresh, the cache serves only as a fallback, and
skipping the call records `Quota` (intended to call, budget empty) or
`CacheOnly` (never intended); workspaces and projects, however, are
resolved cache-first: a cached value is returned without any remote
call even when `allow_api` is true and quota is available (and their
fetches are not quota-metered), the API is called only on a cache miss
with `allow_api` true (writing through on success), and a cache miss
without `allow_api` records `CacheOnly` and errors. -/
theorem resolve_resolution_policy :
    (∀ (env : Env) (st : AppSt) (allow_api : Bool)
        (reason : Option CacheReason)
        (fetchW : Except TogglError (List Workspace))
        (c : CachedData (List Workspace)),
      st.cache.bind (fun cf => cf.workspaces) = some c →
      resolve_workspaces env st allow_api reason fetchW =
        Resolution.mk (some c.data) st reason false) ∧
    (∀ (env : Env) (st : AppSt) (reason : Option CacheReason)
        (ws : List Workspace),
      st.cache.bind (fun cf => cf.workspaces) = none →
      resolve_workspaces env st true reason (Except.ok ws) =
        Resolution.mk (some ws) (update_cache_workspaces env st ws)
          reason true) ∧
    (∀ (env : Env) (st : AppSt) (reason : Option CacheReason)
        (fetchW : Except TogglError (List Workspace)),
      st.cache.bind (fun cf => cf.workspaces) = none →
      (resolve_workspaces env st false reason fetchW).apiCalled = false ∧
      (resolve_workspaces env st false reason fetchW).reason =
        (if reason = none then some CacheReason.cacheOnly else reason) ∧
      (resolve_workspaces env st false reason fetchW).st.mode =
        Mode.error) ∧
    (∀ (env : Env) (st : AppSt) (allow_api : Bool) (wid : Nat)
        (reason : Option CacheReason)
        (fetchP : Except TogglError (List Project))
        (c : CachedData (List Project)),
      st.cache.bind (fun cf => assocGet cf.projects wid) = some c →
      resolve_projects env st allow_api wid reason fetchP =
        Resolution.mk (some c.data) st reason false) ∧
    (∀ (env : Env) (st : AppSt) (wid : Nat) (reason : Option CacheReason)
        (ps : List Project),
      st.cache.bind (fun cf => assocGet cf.projects wid) = none →
      resolve_projects env st true wid reason (Except.ok ps) =
        Resolution.mk (some ps) (update_cache_projects env st wid ps)
          reason true) ∧
    (∀ (env : Env) (st : AppSt) (wid : Nat) (reason : Option CacheReason)
        (fetchP : Except TogglError (List Project)),
      st.cache.bind (fun cf => assocGet cf.projects wid) = none →
      (resolve_projects env st false wid reason fetchP).apiCalled = false ∧
      (resolve_projects env st false wid reason fetchP).reason =
        (if reason = none then some CacheReason.cacheOnly else reason) ∧
      (resolve_projects env st false wid reason fetchP).st.mode =
        Mode.error) ∧
    (∀ (env : Env) (st : AppSt) (wid : Nat) (s e : String)
        (reason : Option CacheReason) (ts0 : Option String)
        (entries : List TimeEntry),
      0 < quota_remaining st →
      resolve_time_entries env st true wid s e reason ts0
          (Except.ok entries) =
        ResolutionT.mk (some entries)
          (update_cache_time_entries env (consume_quota st) wid s e entries)
          reason ts0 true) ∧
    (∀ (env : Env) (st : AppSt) (wid : Nat) (s e : String)
        (reason : Option CacheReason) (ts0 : Option String)
        (fetchT : Except TogglError (List TimeEntry)),
      quota_remaining st = 0 →
      (resolve_time_entries env st true wid s e reason ts0
        fetchT).apiCalled = false ∧
      (resolve_time_entries env st true wid s e reason ts0 fetchT).reason =
        (if reason = none then some CacheReason.quota else reason)) ∧
    (∀ (env : Env) (st : AppSt) (wid : Nat) (s e : String)
        (reason : Option CacheReason) (ts0 : Option String)
        (fetchT : Except TogglError (List TimeEntry)),
      (resolve_time_entries env st false wid s e reason ts0
        fetchT).apiCalled = false ∧
      (resolve_time_entries env st false wid s e reason ts0 fetchT).reason =
        (if reason = none then some CacheReason.cacheOnly else reason)) ∧
    (∀ (env : Env) (st : AppSt) (wid : Nat) (s e : String)
        (reason : Option CacheReason) (ts0 : Option String)
        (fetchT : Except TogglError (List TimeEntry))
        (c : CachedData (List TimeEntry)),
      st.cache.bind
          (fun cf => cached_time_entries_for_range env cf wid s e) =
        some c →
      (resolve_time_entries env st false wid s e reason ts0
        fetchT).result = some c.data ∧
      (resolve_time_entries env st false wid s e reason ts0
        fetchT).cacheTimestamp = some c.fetched_at) := by
  refine ⟨?_, ?_, ?_, ?_, ?_, ?_, ?_, ?_, ?_, ?_⟩
  · intro env st allow_api reason fetchW c h
    unfold resolve_workspaces
    rw [h]
  · intro env st reason ws h
    unfold resolve_workspaces
    rw [h]
    rfl
  · intro env st reason fetchW h
    unfold resolve_workspaces
    rw [h]
    refine ⟨rfl, rfl, rfl⟩
  · intro env st allow_api wid reason fetchP c h
    unfold resolve_projects
    rw [h]
  · intro env st wid reason ps h
    unfold resolve_projects
    rw [h]
    rfl
  · intro env st wid reason fetchP h
    unfold resolve_projects
    rw [h]
    refine ⟨rfl, rfl, rfl⟩
  · intro env st wid s e reason ts0 entries h
    unfold resolve_time_entries
    have hq : ¬ quota_remaining st = 0 := by omega
    simp only [if_true, hq, if_false, ite_false, ite_true]
  · intro env st wid s e reason ts0 fetchT h
    unfold resolve_time_entries
    simp only [h, if_true, ite_true]
    unfold timeEntriesFallback
    cases hc : st.cache.bind
        (fun cf => cached_time_entries_for_range env cf wid s e) with
    | none =>
      dsimp only
      refine ⟨?_, ?_⟩ <;> split <;> first
        | rfl
        | (split <;> rfl)
    | some c =>
      exact ⟨rfl, rfl⟩
  · intro env st wid s e reason ts0 fetchT
    unfold resolve_time_entries
    simp only [Bool.false_eq_true, if_false, ite_false]
    unfold timeEntriesFallback
    cases hc : st.cache.bind
        (fun cf => cached_time_entries_for_range env cf wid s e) with
    | none =>
      dsimp only
      refine ⟨?_, ?_⟩ <;> split <;> first
        | rfl
        | (split <;> rfl)
    | some c =>
      exact ⟨rfl, rfl⟩
  · intro env st wid s e reason ts0 fetchT c h
    unfold resolve_time_entries
    simp only [Bool.false_eq_true, if_false, ite_false]
    unfold timeEntriesFallback
    rw [h]
    exact ⟨rfl, rfl⟩

/-- Witness for the amended claim C1: with cached workspaces the cached
list is returned without an API call, and a time-entries fetch with
quota available returns the fresh list and writes it through. -/
theorem resolve_resolution_policy_witness :
    resolve_workspaces witnessEnv witnessStCachedW true none
        (Except.ok [Workspace.mk 2 "W2"]) =
      Resolution.mk (some [Workspace.mk 1 "W1"]) witnessStCachedW
        none false ∧
    resolve_time_entries witnessEnv witnessStEmpty true 7 "S" "E" none none
        (Except.ok [witnessE2]) =
      ResolutionT.mk (some [witnessE2])
        (update_cache_time_entries witnessEnv (consume_quota witnessStEmpty)
          7 "S" "E" [witnessE2]) none none true :=
  ⟨resolve_resolution_policy.1 witnessEnv witnessStCachedW true none
      (Except.ok [Workspace.mk 2 "W2"])
      (CachedData.mk [Workspace.mk 1 "W1"] "t1") (by decide),
    resolve_resolution_policy.2.2.2.2.2.2.1 witnessEnv witnessStEmpty 7
      "S" "E" none none [witnessE2] (by decide)⟩

/-! ### Targeted re-fetch lemmas -/

/-- A cache write is visible at its own key. -/
theorem update_cache_time_entries_lookup_self (env : Env) (st : AppSt)
    (wid : Nat) (s1 s2 : String) (es : List TimeEntry) :
    (update_cache_time_entries env st wid s1 s2 es).cache.bind
        (fun cf => assocGet cf.time_entries (cache_key wid s1 s2)) =
      some (CachedData.mk es env.now) := by
  unfold update_cache_time_entries
  rw [Option.some_bind]
  exact assocGet_insert_self _ _ _

/-- A cache write leaves every other key's lookup unchanged. -/
theorem update_cache_time_entries_lookup_ne (env : Env) (st : AppSt)
    (wid : Nat) (s1 s2 : String) (es : List TimeEntry) (key : String)
    (hne : key ≠ cache_key wid s1 s2) :
    (update_cache_time_entries env st wid s1 s2 es).cache.bind
        (fun cf => assocGet cf.time_entries key) =
      st.cache.bind (fun cf => assocGet cf.time_entries key) := by
  unfold update_cache_time_entries
  rw [Option.some_bind]
  rw [assocGet_insert_ne _ _ _ _ hne]
  unfold cacheOf
  cases st.cache with
  | none => simp [new_cache, assocGet]
  | some cf => simp

/-- Closed form of the re-fetch day span. -/
theorem date_span_eq (s e : Nat) :
    date_span s e = (List.range (e + 1 - s)).map (fun i => s + i) := by
  suffices h : ∀ n s, dateSpanLoop n s =
      (List.range n).map (fun i => s + i) by
    exact h (e + 1 - s) s
  intro n
  induction n with
  | zero =>
    intro s
    simp [dateSpanLoop]
  | succ n ih =>
    intro s
    rw [dateSpanLoop, ih (s + 1), List.range_succ_eq_map]
    simp only [List.map_cons, List.map_map, Nat.add_zero]
    refine congrArg (List.cons _) ?_
    apply List.map_congr_left
    intro i _
    have h2 : s + 1 + i = s + (i + 1) := by omega
    simp [Function.comp, Nat.succ_eq_add_one, h2]

/-- The day span has no duplicate days. -/
theorem date_span_nodup (s e : Nat) : (date_span s e).Nodup := by
  rw [date_span_eq]
  refine (List.nodup_range _).map ?_
  intro a b hab
  simp only at hab
  omega

/-- Invariant of the day-by-day re-fetch loop: if the first `k` days
fetch successfully and the quota allows `k + 1` attempts, then a
recoverable error on day `k` stops the loop with exactly the first `k`
days fetched and written through (one quota unit consumed per attempted
day), while `Unauthorized` aborts to login. -/
theorem refetchLoop_partial (env : Env)
    (fetch : Nat → Except TogglError (List TimeEntry)) (wid : Nat)
    (dayRfc : Nat → String × String) :
    ∀ (ds : List Nat) (k : Nat) (st : AppSt) (fetched : List Nat)
      (hk : k < ds.length),
      (∀ d ∈ ds.take k, ∃ es, fetch d = Except.ok es) →
      st.quotaUsed + k + 1 ≤ CALL_LIMIT →
      ds.Nodup →
      (∀ d d', d ∈ ds → d' ∈ ds →
        cache_key wid (dayRfc d).1 (dayRfc d).2 =
          cache_key wid (dayRfc d').1 (dayRfc d').2 → d = d') →
      ((∀ err, fetch (ds.get ⟨k, hk⟩) = Except.error err →
          err ≠ TogglError.unauthorized →
        (refetchLoop env fetch wid dayRfc ds st fetched).1.quotaUsed =
            st.quotaUsed + (k + 1) ∧
        (refetchLoop env fetch wid dayRfc ds st fetched).2.1 =
            fetched ++ ds.take k ∧
        (refetchLoop env fetch wid dayRfc ds st fetched).2.2.1 =
            some (stopMessage err) ∧
        (refetchLoop env fetch wid dayRfc ds st fetched).2.2.2 = false ∧
        (∀ key v,
          st.cache.bind (fun cf => assocGet cf.time_entries key) = some v →
          (∀ d' ∈ ds.take k,
            key ≠ cache_key wid (dayRfc d').1 (dayRfc d').2) →
          (refetchLoop env fetch wid dayRfc ds st
              fetched).1.cache.bind
            (fun cf => assocGet cf.time_entries key) = some v) ∧
        (∀ d ∈ ds.take k, ∃ es, fetch d = Except.ok es ∧
          (refetchLoop env fetch wid dayRfc ds st
              fetched).1.cache.bind
            (fun cf => assocGet cf.time_entries
              (cache_key wid (dayRfc d).1 (dayRfc d).2)) =
            some (CachedData.mk es env.now))) ∧
      (fetch (ds.get ⟨k, hk⟩) = Except.error TogglError.unauthorized →
        (refetchLoop env fetch wid dayRfc ds st fetched).2.2.2 = true ∧
        (refetchLoop env fetch wid dayRfc ds st fetched).1.mode =
          Mode.login ∧
        (refetchLoop env fetch wid dayRfc ds st fetched).1.token = none ∧
        (refetchLoop env fetch wid dayRfc ds st fetched).1.cache =
          none)) := by
  intro ds
  induction ds with
  | nil =>
    intro k st fetched hk
    exact absurd hk (by simp)
  | cons d rest ih =>
    intro k st fetched hk hok hquota hnodup hkeys
    have hrem : ¬ (quota_remaining st = 0) := by
      unfold quota_remaining
      unfold CALL_LIMIT at hquota ⊢
      omega
    rw [refetchLoop, if_neg hrem]
    have hconsume : (consume_quota st).quotaUsed = st.quotaUsed + 1 := by
      unfold consume_quota
      unfold CALL_LIMIT at hquota ⊢
      simp
      omega
    cases k with
    | zero =>
      constructor
      · intro err herr hne
        have hget : (d :: rest).get ⟨0, hk⟩ = d := rfl
        rw [hget] at herr
        rw [herr]
        cases err with
        | unauthorized => exact absurd rfl hne
        | paymentRequired =>
          refine ⟨by rw [hconsume], by simp, rfl, rfl, ?_, by simp⟩
          intro key v hv _
          exact hv
        | rateLimited =>
          refine ⟨by rw [hconsume], by simp, rfl, rfl, ?_, by simp⟩
          intro key v hv _
          exact hv
        | serverError m =>
          refine ⟨by rw [hconsume], by simp, rfl, rfl, ?_, by simp⟩
          intro key v hv _
          exact hv
        | network m =>
          refine ⟨by rw [hconsume], by simp, rfl, rfl, ?_, by simp⟩
          intro key v hv _
          exact hv
      · intro herr
        have hget : (d :: rest).get ⟨0, hk⟩ = d := rfl
        rw [hget] at herr
        rw [herr]
        exact ⟨rfl, rfl, rfl, rfl⟩
    | succ j =>
      have hdhead : d ∈ (d :: rest).take (j + 1) := by
        rw [List.take_succ_cons]
        exact List.mem_cons_self _ _
      obtain ⟨es, hes⟩ := hok d hdhead
      rw [hes]
      dsimp only
      have hk' : j < rest.length := by
        simpa using hk
      have hok' : ∀ x ∈ rest.take j, ∃ es, fetch x = Except.ok es := by
        intro x hx
        refine hok x ?_
        rw [List.take_succ_cons]
        exact List.mem_cons_of_mem _ hx
      have hquota' :
          (update_cache_time_entries env (consume_quota st) wid
            (dayRfc d).1 (dayRfc d).2 es).quotaUsed + j + 1 ≤ CALL_LIMIT := by
        have : (update_cache_time_entries env (consume_quota st) wid
            (dayRfc d).1 (dayRfc d).2 es).quotaUsed =
            (consume_quota st).quotaUsed := rfl
        rw [this, hconsume]
        unfold CALL_LIMIT at hquota ⊢
        omega
      have hnodup' : rest.Nodup := (List.nodup_cons.mp hnodup).2
      have hdnotin : d ∉ rest := (List.nodup_cons.mp hnodup).1
      have hkeys' : ∀ x y, x ∈ rest → y ∈ rest →
          cache_key wid (dayRfc x).1 (dayRfc x).2 =
            cache_key wid (dayRfc y).1 (dayRfc y).2 → x = y := by
        intro x y hx hy
        exact hkeys x y (List.mem_cons_of_mem _ hx) (List.mem_cons_of_mem _ hy)
      obtain ⟨IH1, IH2⟩ := ih j
        (update_cache_time_entries env (consume_quota st) wid
          (dayRfc d).1 (dayRfc d).2 es)
        (fetched ++ [d]) hk' hok' hquota' hnodup' hkeys'
      have hget : (d :: rest).get ⟨j + 1, hk⟩ = rest.get ⟨j, hk'⟩ := rfl
      constructor
      · intro err herr hne
        rw [hget] at herr
        obtain ⟨ihq, ihf, ihs, iha, ihpres, ihw⟩ := IH1 err herr hne
        refine ⟨?_, ?_, ihs, iha, ?_, ?_⟩
        · rw [ihq]
          have : (update_cache_time_entries env (consume_quota st) wid
              (dayRfc d).1 (dayRfc d).2 es).quotaUsed =
              (consume_quota st).quotaUsed := rfl
          rw [this, hconsume]
          omega
        · rw [ihf, List.take_succ_cons]
          simp
        · intro key v hv hne'
          have hkeyd : key ≠ cache_key wid (dayRfc d).1 (dayRfc d).2 :=
            hne' d hdhead
          refine ihpres key v ?_ ?_
          · rw [update_cache_time_entries_lookup_ne env _ wid _ _ es key hkeyd]
            exact hv
          · intro d' hd'
            refine hne' d' ?_
            rw [List.take_succ_cons]
            exact List.mem_cons_of_mem _ hd'
        · intro d' hd'
          rw [List.take_succ_cons] at hd'
          rcases List.mem_cons.mp hd' with rfl | hd'
          · refine ⟨es, hes, ?_⟩
            refine ihpres _ _ ?_ ?_
            · exact update_cache_time_entries_lookup_self env _ wid _ _ es
            · intro x hx habs
              have hx' : x ∈ rest := List.take_subset _ _ hx
              have := hkeys d' x (List.mem_cons_self _ _)
                (List.mem_cons_of_mem _ hx') habs
              exact hdnotin (this ▸ hx')
          · exact ihw d' hd'
      · intro herr
        rw [hget] at herr
        exact IH2 herr

/-- Claim C9: when a targeted re-fetch over a multi-day span hits
`PaymentRequired`, `RateLimited`, `ServerError` or `Network` on day `k`
(the first `k` days succeeding, quota allowing `k + 1` attempts, each
day using a distinct cache key), the loop stops there: the first `k`
days are fetched, written through to cache and reported as fetched, the
failing and all later days are reported as skipped, the specific stop
reason is surfaced, one quota unit is consumed per attempted day, and
`Unauthorized` instead aborts the whole operation to the login state
(clearing token and cache). -/
theorem execute_rollup_refetch_partial_stop (env : Env)
    (fetch : Nat → Except TogglError (List TimeEntry)) (wid : Nat)
    (dayRfc : Nat → String × String) (startD endD : Nat) (st : AppSt)
    (k : Nat) (hk : k < (date_span startD endD).length)
    (hok : ∀ d ∈ (date_span startD endD).take k,
      ∃ es, fetch d = Except.ok es)
    (hquota : st.quotaUsed + k + 1 ≤ CALL_LIMIT)
    (hkeys : ∀ d ∈ date_span startD endD, ∀ d' ∈ date_span startD endD,
      cache_key wid (dayRfc d).1 (dayRfc d).2 =
        cache_key wid (dayRfc d').1 (dayRfc d').2 → d = d') :
    (∀ err, fetch ((date_span startD endD).get ⟨k, hk⟩) =
        Except.error err → err ≠ TogglError.unauthorized →
      (execute_rollup_refetch env fetch wid dayRfc startD endD
          st).fetchedDays = (date_span startD endD).take k ∧
      (execute_rollup_refetch env fetch wid dayRfc startD endD
          st).skippedDays = (date_span startD endD).drop k ∧
      (execute_rollup_refetch env fetch wid dayRfc startD endD
          st).stopReason = some (stopMessage err) ∧
      (execute_rollup_refetch env fetch wid dayRfc startD endD
          st).st.quotaUsed = st.quotaUsed + (k + 1) ∧
      (execute_rollup_refetch env fetch wid dayRfc startD endD
          st).aborted = false ∧
      (execute_rollup_refetch env fetch wid dayRfc startD endD
          st).st.mode = Mode.loading ∧
      (∀ d ∈ (date_span startD endD).take k, ∃ es,
        fetch d = Except.ok es ∧
        (execute_rollup_refetch env fetch wid dayRfc startD endD
            st).st.cache.bind
          (fun cf => assocGet cf.time_entries
            (cache_key wid (dayRfc d).1 (dayRfc d).2)) =
          some (CachedData.mk es env.now))) ∧
    (fetch ((date_span startD endD).get ⟨k, hk⟩) =
        Except.error TogglError.unauthorized →
      (execute_rollup_refetch env fetch wid dayRfc startD endD
          st).aborted = true ∧
      (execute_rollup_refetch env fetch wid dayRfc startD endD
          st).st.mode = Mode.login ∧
      (execute_rollup_refetch env fetch wid dayRfc startD endD
          st).st.token = none ∧
      (execute_rollup_refetch env fetch wid dayRfc startD endD
          st).st.cache = none) := by
  have hloop := refetchLoop_partial env fetch wid dayRfc
    (date_span startD endD) k st [] hk hok hquota
    (date_span_nodup startD endD)
    (fun d d' hd hd' => hkeys d hd d' hd')
  constructor
  · intro err herr hne
    obtain ⟨ihq, ihf, ihs, iha, _, ihw⟩ := hloop.1 err herr hne
    unfold execute_rollup_refetch
    dsimp only
    rw [iha, ihf, ihs]
    have hcond : ¬ (([] ++ List.take k (date_span startD endD)).length =
        (date_span startD endD).length) := by
      rw [List.nil_append, List.length_take]
      omega
    rw [if_neg (by simp : ¬ (false = true)), if_neg hcond]
    refine ⟨by simp, ?_, by simp, ihq, rfl, rfl, ?_⟩
    · rw [List.nil_append, List.length_take]
      have hmin : min k (date_span startD endD).length = k := by omega
      rw [hmin]
    · intro d hd
      obtain ⟨es, hes, hlook⟩ := ihw d hd
      exact ⟨es, hes, hlook⟩
  · intro herr
    obtain ⟨iha, ihm, iht, ihc⟩ := hloop.2 herr
    unfold execute_rollup_refetch
    dsimp only
    rw [iha]
    simp only [if_true, ite_true]
    refine ⟨by simp, ihm, iht, ihc⟩

/-- Witness for claim C9: re-fetching the 5-day span 1–5 where day 3
returns `RateLimited` reports days 1–2 fetched, days 3–5 skipped, the
rate-limit stop reason, and three consumed quota units. -/
theorem execute_rollup_refetch_partial_stop_witness :
    (execute_rollup_refetch witnessEnv
        (fun d => if d ≤ 2 then Except.ok ([] : List TimeEntry)
          else Except.error TogglError.rateLimited)
        7 (fun d => (toString d, toString d)) 1 5
        witnessStEmpty).fetchedDays = (date_span 1 5).take 2 ∧
    (execute_rollup_refetch witnessEnv
        (fun d => if d ≤ 2 then Except.ok ([] : List TimeEntry)
          else Except.error TogglError.rateLimited)
        7 (fun d => (toString d, toString d)) 1 5
        witnessStEmpty).skippedDays = (date_span 1 5).drop 2 ∧
    (execute_rollup_refetch witnessEnv
        (fun d => if d ≤ 2 then Except.ok ([] : List TimeEntry)
          else Except.error TogglError.rateLimited)
        7 (fun d => (toString d, toString d)) 1 5
        witnessStEmpty).stopReason =
      some (stopMessage TogglError.rateLimited) ∧
    (execute_rollup_refetch witnessEnv
        (fun d => if d ≤ 2 then Except.ok ([] : List TimeEntry)
          else Except.error TogglError.rateLimited)
        7 (fun d => (toString d, toString d)) 1 5
        witnessStEmpty).st.quotaUsed =
      witnessStEmpty.quotaUsed + (2 + 1) ∧
    (execute_rollup_refetch witnessEnv
        (fun d => if d ≤ 2 then Except.ok ([] : List TimeEntry)
          else Except.error TogglError.rateLimited)
        7 (fun d => (toString d, toString d)) 1 5
        witnessStEmpty).aborted = false := by
  have h := (execute_rollup_refetch_partial_stop witnessEnv
    (fun d => if d ≤ 2 then Except.ok ([] : List TimeEntry)
      else Except.error TogglError.rateLimited)
    7 (fun d => (toString d, toString d)) 1 5 witnessStEmpty 2
    (by decide)
    (by
      intro d hd
      have hspan : (date_span 1 5).take 2 = [1, 2] := by decide
      rw [hspan] at hd
      simp at hd
      rcases hd with rfl | rfl
      · exact ⟨[], rfl⟩
      · exact ⟨[], rfl⟩)
    (by decide)
    (by decide)).1 TogglError.rateLimited rfl (by decide)
  exact ⟨h.1, h.2.1, h.2.2.1, h.2.2.2.1, h.2.2.2.2.1⟩
